import Mathlib

/-!
# Verification of the AWS multi-agent orchestration core

Shallow embedding of `src/aws_orchestrator` (models in `core/models.py`,
orchestrator in `core/orchestrator.py`, compliance engine in
`guardrails/compliance.py`) together with proofs of the specification
claims about it.

Text is modelled as `List Char` with ASCII semantics for the character
classes used by Python's `re` module (the four PII patterns are ASCII
patterns, and `\b`'s word characters are `[A-Za-z0-9_]`).  The four
compiled PII regexes of `ComplianceEngine.PII_PATTERNS` are embedded as
executable matchers that reproduce Python's leftmost scan with greedy
backtracking, including the `\b` word-boundary assertions at both ends.
-/

namespace AwsOrch

/-! ## Characters and word boundaries -/

/-- Word characters of Python's `\b` (ASCII): letters, digits, underscore. -/
def isWordChar (c : Char) : Bool := c.isAlpha || c.isDigit || c = '_'

/-- The class `[A-Za-z0-9._%+-]` (local part of the email pattern). -/
def isLocalChar (c : Char) : Bool :=
  c.isAlpha || c.isDigit || c = '.' || c = '_' || c = '%' || c = '+' || c = '-'

/-- The class `[A-Za-z0-9.-]` (domain part of the email pattern). -/
def isDomainChar (c : Char) : Bool := c.isAlpha || c.isDigit || c = '.' || c = '-'

/-- The class `[A-Z|a-z]` (final part of the email pattern; note that the
pattern literally includes `|` in the class). -/
def isTldChar (c : Char) : Bool := c.isAlpha || c = '|'

/-- The class `[-.]` (optional separators of the phone pattern). -/
def isPhoneSep (c : Char) : Bool := c = '-' || c = '.'

/-- The class `[- ]` (optional separators of the credit-card pattern). -/
def isCardSep (c : Char) : Bool := c = '-' || c = ' '

/-- Word-character status of the first character of a list
(`false` on the empty list, i.e. at end of input). -/
def wFirst : List Char → Bool
  | [] => false
  | c :: _ => isWordChar c

/-- Word-character status of the character at index `i`
(`false` when out of range). -/
def wIdx (s : List Char) (i : Nat) : Bool := ((s[i]?).map isWordChar).getD false

/-- Word-character status of the last character of a list. -/
def wLast (w : List Char) : Bool := wIdx w (w.length - 1)

/-- A `\b` word boundary holds between two positions iff their
word-character statuses differ. -/
def bdry (a b : Bool) : Bool := a != b

/-- Consume one literal character. -/
def eatLit (ch : Char) (s : List Char) : Option (List Char) :=
  match s with
  | c :: r => if c = ch then some r else none
  | [] => none

/-! ## The email matcher

Embeds `\b[A-Za-z0-9._%+-]+@[A-Za-z0-9.-]+\.[A-Z|a-z]{2,}\b` attempted at a
fixed start position: greedy sub-matches with Python's backtracking order.
`pw` is the word-character status of the character preceding the start
position (`false` at the start of the text). -/

/-- Backtracking for `[A-Z|a-z]{2,}\b` on `v`: try length `k` (at most the
length of the maximal run, the initial argument), longest first; succeed at
the first `k ≥ 2` whose trailing position is a word boundary. -/
def tldTry (v : List Char) : Nat → Option Nat
  | 0 => none
  | 1 => none
  | k + 2 => if bdry (wIdx v (k + 1)) (wIdx v (k + 2)) then some (k + 2) else tldTry v (k + 1)

/-- `[A-Z|a-z]{2,}\b` at the start of `v`, greedy. -/
def tldMatch (v : List Char) : Option Nat := tldTry v (v.takeWhile isTldChar).length

/-- Backtracking for `[A-Za-z0-9.-]+\.[A-Z|a-z]{2,}\b` on `u`: try domain
length `j` (largest first, starting below the maximal `[A-Za-z0-9.-]` run
since the character after a maximal run is never `.`); the character at
index `j` must be the literal `.`, then the final part must match. -/
def domTry (u : List Char) : Nat → Option Nat
  | 0 => none
  | j + 1 =>
    if u[j + 1]? = some '.' then
      match tldMatch (u.drop (j + 2)) with
      | some k => some (j + 2 + k)
      | none => domTry u j
    else domTry u j

/-- `[A-Za-z0-9.-]+\.[A-Z|a-z]{2,}\b` at the start of `u`, greedy. -/
def domMatch (u : List Char) : Option Nat :=
  domTry u ((u.takeWhile isDomainChar).length - 1)

/-- The full email pattern attempted at the start of `s`, given the
word-character status `pw` of the preceding character.  Returns the length
of the match (Python semantics: the local run is maximal, since a shorter
local part would have to be followed by `@`, which is not a local
character). -/
def emailMatch (pw : Bool) (s : List Char) : Option Nat :=
  match s.takeWhile isLocalChar with
  | [] => none
  | c :: _ =>
    if bdry pw (isWordChar c) then
      match eatLit '@' (s.drop (s.takeWhile isLocalChar).length) with
      | some u =>
        match domMatch u with
        | some k => some ((s.takeWhile isLocalChar).length + 1 + k)
        | none => none
      | none => none
    else none

/-! ## The fixed-shape digit matchers (ssn, phone, credit card) -/

/-- Consume exactly `n` ASCII digits. -/
def eatDigits : Nat → List Char → Option (List Char)
  | 0, s => some s
  | _ + 1, [] => none
  | n + 1, c :: s => if c.isDigit then eatDigits n s else none

/-- Consume one separator if `present`, else nothing (one branch of the
greedy `?`). -/
def eatSep (sep : Char → Bool) (present : Bool) (s : List Char) : Option (List Char) :=
  if present then
    match s with
    | c :: r => if sep c then some r else none
    | [] => none
  else some s

/-- The body of `\d{3}-\d{2}-\d{4}\b`: parse the digit groups and the
literal dashes, then check the trailing boundary (the last matched
character is a digit, a word character, so the boundary requires a
non-word follow character). -/
def ssnCombo (s : List Char) : Option Nat :=
  match eatDigits 3 s with
  | none => none
  | some s1 =>
    match eatLit '-' s1 with
    | none => none
    | some s2 =>
      match eatDigits 2 s2 with
      | none => none
      | some s3 =>
        match eatLit '-' s3 with
        | none => none
        | some s4 =>
          match eatDigits 4 s4 with
          | none => none
          | some s5 =>
            if wFirst s5 then none
            else some 11

/-- `\b\d{3}-\d{2}-\d{4}\b` attempted at the start of `s`. -/
def ssnMatch (pw : Bool) (s : List Char) : Option Nat :=
  if bdry pw (wFirst s) then ssnCombo s else none

/-- One separator-presence combination of `\d{3}[-.]?\d{3}[-.]?\d{4}\b`:
parse the digit groups with the given separator choices, then check the
trailing boundary (the last matched character is a digit, hence a word
character, so the boundary requires a non-word follow character). -/
def phoneCombo (s : List Char) (p1 p2 : Bool) : Option Nat :=
  match eatDigits 3 s with
  | none => none
  | some s1 =>
    match eatSep isPhoneSep p1 s1 with
    | none => none
    | some s2 =>
      match eatDigits 3 s2 with
      | none => none
      | some s3 =>
        match eatSep isPhoneSep p2 s3 with
        | none => none
        | some s4 =>
          match eatDigits 4 s4 with
          | none => none
          | some s5 =>
            if wFirst s5 then none
            else some (10 + (if p1 then 1 else 0) + (if p2 then 1 else 0))

/-- Greedy backtracking over the separator choices of the phone pattern
(`?` is greedy: presence is tried before absence, left choice first). -/
def phoneTry (s : List Char) : List (Bool × Bool) → Option Nat
  | [] => none
  | (p1, p2) :: rest =>
    match phoneCombo s p1 p2 with
    | some n => some n
    | none => phoneTry s rest

/-- `\b\d{3}[-.]?\d{3}[-.]?\d{4}\b` attempted at the start of `s`. -/
def phoneMatch (pw : Bool) (s : List Char) : Option Nat :=
  if bdry pw (wFirst s) then
    phoneTry s [(true, true), (true, false), (false, true), (false, false)]
  else none

/-- One separator-presence combination of
`\d{4}[- ]?\d{4}[- ]?\d{4}[- ]?\d{4}\b`. -/
def cardCombo (s : List Char) (p1 p2 p3 : Bool) : Option Nat :=
  match eatDigits 4 s with
  | none => none
  | some s1 =>
    match eatSep isCardSep p1 s1 with
    | none => none
    | some s2 =>
      match eatDigits 4 s2 with
      | none => none
      | some s3 =>
        match eatSep isCardSep p2 s3 with
        | none => none
        | some s4 =>
          match eatDigits 4 s4 with
          | none => none
          | some s5 =>
            match eatSep isCardSep p3 s5 with
            | none => none
            | some s6 =>
              match eatDigits 4 s6 with
              | none => none
              | some s7 =>
                if wFirst s7 then none
                else some (16 + (if p1 then 1 else 0) + (if p2 then 1 else 0) +
                                (if p3 then 1 else 0))

/-- Greedy backtracking over the separator choices of the card pattern. -/
def cardTry (s : List Char) : List (Bool × Bool × Bool) → Option Nat
  | [] => none
  | (p1, p2, p3) :: rest =>
    match cardCombo s p1 p2 p3 with
    | some n => some n
    | none => cardTry s rest

/-- `\b\d{4}[- ]?\d{4}[- ]?\d{4}[- ]?\d{4}\b` attempted at the start of `s`. -/
def cardMatch (pw : Bool) (s : List Char) : Option Nat :=
  if bdry pw (wFirst s) then
    cardTry s [(true, true, true), (true, true, false), (true, false, true),
               (true, false, false), (false, true, true), (false, true, false),
               (false, false, true), (false, false, false)]
  else none

/-! ## The scan: `findall` counting and `sub` replacement

Python's `re.sub`/`re.findall` scan: attempt a match at each position; on a
match of length `n ≥ 1`, resume scanning after the match (the `\b` context
of later attempts refers to the original text, so the carried
previous-word status after a match is that of the last matched
character). -/

/-- Fuel-driven scan counting matches; one unit of fuel is spent per scan
step, and every step consumes at least one character, so fuel equal to
the text length always suffices (the fuel only makes the recursion
structural, hence kernel-reducible). -/
def countMatchF (f : Bool → List Char → Option Nat) : Nat → Bool → List Char → Nat
  | 0, _, _ => 0
  | _ + 1, _, [] => 0
  | fuel + 1, pw, c :: r =>
    match f pw (c :: r) with
    | none => countMatchF f fuel (isWordChar c) r
    | some n => countMatchF f fuel (wIdx (c :: r) (n - 1)) (r.drop (n - 1)) + 1

/-- Number of non-overlapping matches found by the scan
(the length of `pattern.findall(text)`; the patterns have no groups). -/
def countMatch (f : Bool → List Char → Option Nat) (pw : Bool) (s : List Char) : Nat :=
  countMatchF f s.length pw s

/-- Fuel-driven substitution scan (see `countMatchF`). -/
def subOneF (f : Bool → List Char → Option Nat) (tok : List Char) :
    Nat → Bool → List Char → List Char
  | 0, _, s => s
  | _ + 1, _, [] => []
  | fuel + 1, pw, c :: r =>
    match f pw (c :: r) with
    | none => c :: subOneF f tok fuel (isWordChar c) r
    | some n => tok ++ subOneF f tok fuel (wIdx (c :: r) (n - 1)) (r.drop (n - 1))

/-- `pattern.sub(tok, text)`: replace every match by `tok`. -/
def subOne (f : Bool → List Char → Option Nat) (tok : List Char)
    (pw : Bool) (s : List Char) : List Char :=
  subOneF f tok s.length pw s

/-! ## The data model (`core/models.py`) -/

/-- `AgentType` enum. -/
inductive AgentType
  | bedrock
  | analytics
  | notification
  | custom
deriving DecidableEq, Repr

/-- `AgentStatus` enum. -/
inductive AgentStatus
  | idle
  | running
  | success
  | failed
  | timeout
deriving DecidableEq, Repr

/-- `GuardrailType` enum. -/
inductive GuardrailType
  | data_validation
  | access_control
  | logging_monitoring
  | privacy_compliance
deriving DecidableEq, Repr

/-- `GuardrailConfig` (pydantic model): flags controlling the compliance
engine. -/
structure GuardrailConfig where
  enabled : Bool
  types : List GuardrailType
  pii_detection : Bool
  encryption_at_rest : Bool
  audit_logging : Bool
  iam_policies : List String
deriving DecidableEq, Repr

/-- `Agent` (pydantic model).  UUIDs are modelled as `Nat`. -/
structure Agent where
  id : Nat
  name : String
  agent_type : AgentType
  description : String
  endpoint : String
  timeout : Nat
  retry_attempts : Nat
  enabled : Bool
deriving DecidableEq, Repr

/-- `TaskRequest` (pydantic model).  The query is the scanned text. -/
structure TaskRequest where
  task_id : Nat
  user_id : String
  query : List Char
  preferred_agent : Option AgentType
deriving DecidableEq, Repr

/-- The result payload built by `_execute_agent_task` is a string-keyed
dictionary; modelled as an association list. -/
abbrev Payload := List (String × String)

/-- `TaskResponse` (pydantic model).  `execution_time` is a wall-clock
difference, modelled as a rational. -/
structure TaskResponse where
  task_id : Nat
  agent_id : Nat
  agent_name : String
  status : AgentStatus
  result : Option Payload
  error : Option String
  execution_time : ℚ
deriving DecidableEq, Repr

/-! ## The compliance engine (`guardrails/compliance.py`) -/

/-- The replacement token for the `email` pattern. -/
def emailTok : List Char := "[EMAIL_REDACTED]".data

/-- The replacement token for the `ssn` pattern. -/
def ssnTok : List Char := "[SSN_REDACTED]".data

/-- The replacement token for the `phone` pattern. -/
def phoneTok : List Char := "[PHONE_REDACTED]".data

/-- The replacement token for the `credit_card` pattern. -/
def cardTok : List Char := "[CREDIT_CARD_REDACTED]".data

/-- `ComplianceEngine.detect_pii`: returns the PII kinds with at least one
match, each with its match count, in the fixed dictionary order
`email, ssn, phone, credit_card`; returns the empty mapping when
`pii_detection` is off. -/
def detect_pii (cfg : GuardrailConfig) (text : List Char) : List (String × Nat) :=
  if cfg.pii_detection = false then []
  else
    ([("email", countMatch emailMatch false text),
      ("ssn", countMatch ssnMatch false text),
      ("phone", countMatch phoneMatch false text),
      ("credit_card", countMatch cardMatch false text)]).filter (fun kv => kv.2 ≠ 0)

/-- `ComplianceEngine.mask_pii`: substitute every pattern in the fixed
dictionary order `email, ssn, phone, credit_card` (each pass runs on the
output of the previous one); identity when `pii_detection` is off. -/
def mask_pii (cfg : GuardrailConfig) (text : List Char) : List Char :=
  if cfg.pii_detection = false then text
  else
    subOne cardMatch cardTok false
      (subOne phoneMatch phoneTok false
        (subOne ssnMatch ssnTok false
          (subOne emailMatch emailTok false text)))

/-- `ComplianceEngine.validate_request`: when guardrails are enabled and
PII is detected in the query (and `pii_detection` is on), rewrite the
query to its masked form; in the source the rewrite is an in-place
mutation of the caller's request object, modelled here by the returned
record. -/
def validate_request (cfg : GuardrailConfig) (req : TaskRequest) : TaskRequest :=
  if cfg.enabled = false then req
  else
    if detect_pii cfg req.query ≠ [] ∧ cfg.pii_detection = true then
      { req with query := mask_pii cfg req.query }
    else req

/-- `ComplianceEngine.filter_response`: response-side handling is
detection-only (the detections feed the logger), and the payload is
returned unchanged on every path. -/
def filter_response (cfg : GuardrailConfig) (response : Payload) : Payload :=
  if cfg.enabled = false then response
  else response

/-- `ComplianceEngine.validate_access`: returns `True` unconditionally
(when disabled, and — the policy check being a stub — when enabled). -/
def validate_access (cfg : GuardrailConfig) (_user_id _resource : String) : Bool :=
  if cfg.enabled = false then true
  else true

/-- Number of start positions at which `p` occurs as a contiguous block of
`s` (for the redaction tokens, which have no non-trivial self-overlap,
this coincides with the non-overlapping occurrence count). -/
def countOcc (p : List Char) : List Char → Nat
  | [] => 0
  | c :: r => (if p.isPrefixOf (c :: r) then 1 else 0) + countOcc p r

/-! ## The orchestrator (`core/orchestrator.py`)

The agent registry `self.agents` is a dict indexed by agent id whose
iteration order is registration order; it is modelled as a list of agents
in registration order. -/

/-- `Orchestrator.get_agent_by_type`: first enabled agent of the given
type, in registry iteration order. -/
def get_agent_by_type (agents : List Agent) (t : AgentType) : Option Agent :=
  agents.find? (fun a => a.agent_type = t && a.enabled)

/-- `Orchestrator.select_agent`: the preferred type wins when an enabled
agent of that type exists; otherwise the first enabled agent in registry
iteration order; `none` when no enabled agent exists. -/
def select_agent (agents : List Agent) (req : TaskRequest) : Option Agent :=
  match req.preferred_agent with
  | some t =>
    match get_agent_by_type agents t with
    | some a => some a
    | none => agents.find? (fun a => a.enabled)
  | none => agents.find? (fun a => a.enabled)

/-- Outcome of one invocation of the external collaborator inside
`_execute_agent_task` (attempt number ↦ outcome).  `retryable` models the
tenacity default of retrying every `Exception` while `BaseException`s
(e.g. cancellation) escape the retry loop. -/
inductive AttemptOutcome (α : Type) where
  | ok (v : α)
  | raise (msg : String) (retryable : Bool)
deriving DecidableEq, Repr

/-- Trace of the retry loop: final outcome, number of attempts made, and
the waits slept between attempts. -/
structure RetryTrace (α : Type) where
  result : AttemptOutcome α
  attempts : Nat
  waits : List Nat
deriving DecidableEq, Repr

/-- Modelled from the spec: the wait of tenacity's
`wait_exponential(multiplier=1, min=2, max=10)` after failed attempt `n`
(the tenacity library is an external collaborator, not part of `src/`);
per the spec's retry policy the backoff starts at 2 time-units, doubles,
and is capped at 10 time-units. -/
def waitExp (n : Nat) : Nat := min (max (2 ^ n) 2) 10

/-- The retry loop of `_execute_agent_task` under
`retry(stop=stop_after_attempt(3), wait=wait_exponential(...), reraise=True)`:
`k` is the current attempt number, `r` the number of further attempts
allowed.  A retryable failure with attempts remaining sleeps `waitExp k`
and retries; otherwise the failure propagates (`reraise=True` re-raises
the last failure on exhaustion). -/
def retryAux (collab : Nat → AttemptOutcome α) : Nat → Nat → RetryTrace α
  | k, r =>
    match collab k with
    | .ok v => ⟨.ok v, k, []⟩
    | .raise m rb =>
      match r with
      | 0 => ⟨.raise m rb, k, []⟩
      | r' + 1 =>
        if rb then
          let t := retryAux collab (k + 1) r'
          ⟨t.result, t.attempts, waitExp k :: t.waits⟩
        else ⟨.raise m rb, k, []⟩
termination_by _ r => r

/-- `_execute_agent_task`'s guarded execution: at most
`stop_after_attempt(3)` attempts in total. -/
def execRetry (collab : Nat → AttemptOutcome α) : RetryTrace α := retryAux collab 1 2

/-- The body of one `_execute_agent_task` attempt: validate the request
through the compliance guard, build the result payload, and filter it
through the compliance guard before returning (the `timestamp` field, a
wall-clock value no claim touches, is omitted). -/
def execute_agent_task (cfg : GuardrailConfig) (agent : Agent) (req : TaskRequest) : Payload :=
  let validated := validate_request cfg req
  filter_response cfg
    [("status", "success"),
     ("data", "Processed by " ++ agent.name),
     ("query", String.mk validated.query)]

/-- Outcome of the guarded execution `asyncio.wait_for(_execute_agent_task …)`
as observed by `process_task`: the filtered result payload, a timeout
(`asyncio.TimeoutError`), or any other failure with its message. -/
inductive ExecOutcome where
  | success (result : Payload)
  | timedOut
  | failure (msg : String)
deriving DecidableEq, Repr

/-- `Orchestrator.process_task`: select an agent, then map the guarded
execution's outcome to a response; every error is captured in the
response, never thrown.  `t0` is the recorded start time and `t1` the
wall-clock time at response construction. -/
def process_task (agents : List Agent) (req : TaskRequest) (outcome : ExecOutcome)
    (t0 t1 : ℚ) : TaskResponse :=
  match select_agent agents req with
  | none =>
    { task_id := req.task_id, agent_id := 0, agent_name := "none",
      status := .failed, result := none,
      error := some "No suitable agent available", execution_time := t1 - t0 }
  | some a =>
    match outcome with
    | .success r =>
      { task_id := req.task_id, agent_id := a.id, agent_name := a.name,
        status := .success, result := some r, error := none,
        execution_time := t1 - t0 }
    | .timedOut =>
      { task_id := req.task_id, agent_id := a.id, agent_name := a.name,
        status := .timeout, result := none,
        error := some ("Task exceeded timeout of " ++ toString a.timeout ++ "s"),
        execution_time := t1 - t0 }
    | .failure m =>
      { task_id := req.task_id, agent_id := a.id, agent_name := a.name,
        status := .failed, result := none, error := some m,
        execution_time := t1 - t0 }

/-- `Orchestrator.process_batch`: one `process_task` per request
(`asyncio.gather` keeps results in argument order); each request carries
its own guarded-execution outcome and timing. -/
def process_batch (agents : List Agent)
    (inputs : List (TaskRequest × ExecOutcome × ℚ × ℚ)) : List TaskResponse :=
  inputs.map (fun x => process_task agents x.1 x.2.1 x.2.2.1 x.2.2.2)

/-- The scenario query of the spec's testable properties. -/
def scenarioQuery : List Char :=
  "Contact me at john.doe@example.com or call 555-123-4567".data

/-- The masked form of the scenario query. -/
def scenarioMasked : List Char :=
  "Contact me at [EMAIL_REDACTED] or call [PHONE_REDACTED]".data

/-! ## Declarative pattern shapes and supporting predicates

The scan-level proofs (no match of any kind survives in masked text) use,
for each pattern, a declarative characterisation of its matches: a
boundary-free shape predicate on the matched characters, together with
the two `\b` conditions expressed through the word status of the
characters adjacent to the match. -/

/-- Word status of the character preceding position `i`, for a text `s`
whose own preceding character has word status `pw`. -/
def wCtx (pw : Bool) (s : List Char) : Nat → Bool
  | 0 => pw
  | i + 1 => wIdx s i

/-- No match of `f` starts at any position of `s` (scanning with initial
previous-word status `pw`). -/
def CleanAt (f : Bool → List Char → Option Nat) (pw : Bool) (s : List Char) : Prop :=
  ∀ i, f (wCtx pw s i) (s.drop i) = none

/-- Characters an email match can consist of. -/
def emailCls (c : Char) : Bool :=
  isLocalChar c || c = '@' || isTldChar c

/-- Characters an ssn match can consist of. -/
def ssnCls (c : Char) : Bool := c.isDigit || c = '-'

/-- Characters a phone match can consist of. -/
def phoneCls (c : Char) : Bool := c.isDigit || isPhoneSep c

/-- Characters a card match can consist of. -/
def cardCls (c : Char) : Bool := c.isDigit || isCardSep c

/-- Key character of the email pattern (every match contains one, no
redaction token does). -/
def emailKey (c : Char) : Bool := c = '@'

/-- Key character of the digit patterns. -/
def digitKey (c : Char) : Bool := c.isDigit

/-- Boundary-free shape of an email match:
`local⁺ '@' domain⁺ '.' tld^{≥2}`. -/
def emailShape (w : List Char) : Prop :=
  ∃ l d t : List Char,
    w = l ++ '@' :: (d ++ '.' :: t) ∧
    l ≠ [] ∧ (∀ c ∈ l, isLocalChar c = true) ∧
    d ≠ [] ∧ (∀ c ∈ d, isDomainChar c = true) ∧
    2 ≤ t.length ∧ (∀ c ∈ t, isTldChar c = true)

/-- An optional separator occurrence: empty, or a single separator. -/
def optSep (sep : Char → Bool) (x : List Char) : Prop :=
  x = [] ∨ ∃ c, x = [c] ∧ sep c = true

/-- All characters are ASCII digits. -/
def allDigits (w : List Char) : Prop := ∀ c ∈ w, c.isDigit = true

/-- Boundary-free shape of an ssn match: `ddd-dd-dddd`. -/
def ssnShape (w : List Char) : Prop :=
  ∃ a b c : List Char,
    w = a ++ '-' :: (b ++ '-' :: c) ∧
    a.length = 3 ∧ b.length = 2 ∧ c.length = 4 ∧
    allDigits a ∧ allDigits b ∧ allDigits c

/-- Boundary-free shape of a phone match: `ddd sep? ddd sep? dddd`. -/
def phoneShape (w : List Char) : Prop :=
  ∃ a x b y c : List Char,
    w = a ++ (x ++ (b ++ (y ++ c))) ∧
    a.length = 3 ∧ b.length = 3 ∧ c.length = 4 ∧
    allDigits a ∧ allDigits b ∧ allDigits c ∧
    optSep isPhoneSep x ∧ optSep isPhoneSep y

/-- Boundary-free shape of a card match:
`dddd sep? dddd sep? dddd sep? dddd`. -/
def cardShape (w : List Char) : Prop :=
  ∃ a x b y c z d : List Char,
    w = a ++ (x ++ (b ++ (y ++ (c ++ (z ++ d))))) ∧
    a.length = 4 ∧ b.length = 4 ∧ c.length = 4 ∧ d.length = 4 ∧
    allDigits a ∧ allDigits b ∧ allDigits c ∧ allDigits d ∧
    optSep isCardSep x ∧ optSep isCardSep y ∧ optSep isCardSep z

/-- The laws connecting a matcher to its declarative description:
soundness (a match has the shape, both boundaries, and positive length
within the text), completeness (a shaped prefix with both boundaries is
matched), the character-class bound, and the key-character witness. -/
def PatLaws (m : Bool → List Char → Option Nat) (Shape : List Char → Prop)
    (cls key : Char → Bool) : Prop :=
  (∀ pw s n, m pw s = some n →
    1 ≤ n ∧ n ≤ s.length ∧ Shape (s.take n) ∧
    bdry pw (wFirst (s.take n)) = true ∧
    bdry (wLast (s.take n)) (wFirst (s.drop n)) = true) ∧
  (∀ pw w rest, Shape w → w ≠ [] → bdry pw (wFirst w) = true →
    bdry (wLast w) (wFirst rest) = true → (m pw (w ++ rest)).isSome = true) ∧
  (∀ w, Shape w → ∀ c ∈ w, cls c = true) ∧
  (∀ w, Shape w → ∃ c ∈ w, key c = true)

/-- `p` never occurs starting strictly inside an occurrence of the token
`tokM` (any continuation): rules out straddling occurrences. -/
def NoStraddle (p tokM : List Char) : Prop :=
  ∀ (v : List Char) (j : Nat), j < tokM.length → ¬ p.isPrefixOf (tokM.drop j ++ v)

/-- Like `NoStraddle` but only for positions after the token's head
(used when `p` is the token itself). -/
def NoStraddlePos (p tokM : List Char) : Prop :=
  ∀ (v : List Char) (j : Nat), 1 ≤ j → j < tokM.length → ¬ p.isPrefixOf (tokM.drop j ++ v)

/-- Number of start positions inside the block `a` at which `p` occurs in
`a ++ b` (the occurrence may extend into `b`). -/
def countOccCont (p : List Char) : List Char → List Char → Nat
  | [], _ => 0
  | c :: r, b => (if p.isPrefixOf (c :: r ++ b) then 1 else 0) + countOccCont p r b

/-- `p` differs from `w` at an index inside both lists, so `p` is not a
prefix of `w ++ v` for any continuation `v`. -/
def mismatchAt (p w : List Char) : Bool :=
  (List.range (min p.length w.length)).any fun idx => ! (p[idx]? == w[idx]?)

/-- Decidable sufficient condition for `NoStraddle`. -/
def noStraddleChk (p tokM : List Char) : Bool :=
  (List.range tokM.length).all fun j => mismatchAt p (tokM.drop j)

/-- Decidable sufficient condition for `NoStraddlePos`. -/
def noStraddlePosChk (p tokM : List Char) : Bool :=
  (List.range tokM.length).all fun j => j == 0 || mismatchAt p (tokM.drop j)

/-! # Theorems -/

/-! ## Word-status index lemmas -/

theorem wIdx_nil (i : Nat) : wIdx [] i = false := by
  simp [wIdx]

theorem wIdx_cons_zero (c : Char) (r : List Char) : wIdx (c :: r) 0 = isWordChar c := by
  simp [wIdx]

theorem wIdx_cons_succ (c : Char) (r : List Char) (i : Nat) :
    wIdx (c :: r) (i + 1) = wIdx r i := by
  simp [wIdx]

theorem wFirst_eq_wIdx (s : List Char) : wFirst s = wIdx s 0 := by
  cases s <;> simp [wFirst, wIdx]

theorem wFirst_cons (c : Char) (r : List Char) : wFirst (c :: r) = isWordChar c := rfl

theorem wFirst_nil : wFirst [] = false := rfl

theorem wIdx_drop (s : List Char) (m i : Nat) : wIdx (s.drop m) i = wIdx s (m + i) := by
  simp [wIdx, List.getElem?_drop]

theorem wFirst_drop (s : List Char) (n : Nat) : wFirst (s.drop n) = wIdx s n := by
  rw [wFirst_eq_wIdx, wIdx_drop]
  simp

theorem wIdx_append_left (u v : List Char) (i : Nat) (h : i < u.length) :
    wIdx (u ++ v) i = wIdx u i := by
  simp [wIdx, List.getElem?_append_left h]

theorem wIdx_append_right (u v : List Char) (i : Nat) (h : u.length ≤ i) :
    wIdx (u ++ v) i = wIdx v (i - u.length) := by
  simp [wIdx, List.getElem?_append_right h]

theorem wIdx_take (s : List Char) (n i : Nat) (h : i < n) :
    wIdx (s.take n) i = wIdx s i := by
  simp [wIdx, List.getElem?_take_of_lt h]

theorem wIdx_oob (s : List Char) (i : Nat) (h : s.length ≤ i) : wIdx s i = false := by
  simp [wIdx, List.getElem?_eq_none h]

theorem wLast_take (s : List Char) (n : Nat) (h1 : 1 ≤ n) (h2 : n ≤ s.length) :
    wLast (s.take n) = wIdx s (n - 1) := by
  rw [wLast, List.length_take, wIdx_take]
  · congr 1
    omega
  · omega

theorem wFirst_append (u v : List Char) (h : u ≠ []) : wFirst (u ++ v) = wFirst u := by
  cases u with
  | nil => exact absurd rfl h
  | cons c r => rfl

theorem wLast_append (u t : List Char) (h : t ≠ []) : wLast (u ++ t) = wLast t := by
  have hlen : 1 ≤ t.length := by
    cases t with
    | nil => exact absurd rfl h
    | cons _ _ => simp
  rw [wLast, wLast, List.length_append, wIdx_append_right]
  · congr 1
    omega
  · omega

theorem wCtx_zero (pw : Bool) (s : List Char) : wCtx pw s 0 = pw := rfl

theorem wCtx_succ (pw : Bool) (s : List Char) (i : Nat) :
    wCtx pw s (i + 1) = wIdx s i := rfl

theorem wCtx_cons (pw : Bool) (c : Char) (r : List Char) (i : Nat) :
    wCtx pw (c :: r) (i + 1) = wCtx (isWordChar c) r i := by
  cases i with
  | zero => rw [wCtx_succ, wIdx_cons_zero, wCtx_zero]
  | succ j => rw [wCtx_succ, wIdx_cons_succ, wCtx_succ]

theorem wCtx_drop (pw : Bool) (s : List Char) (k i : Nat) :
    wCtx (wCtx pw s k) (s.drop k) i = wCtx pw s (k + i) := by
  cases i with
  | zero => simp [wCtx]
  | succ j =>
    rw [wCtx_succ, wIdx_drop]
    have : k + (j + 1) = (k + j) + 1 := by omega
    rw [this, wCtx_succ]

theorem wCtx_append_left (pw : Bool) (u v : List Char) (i : Nat) (h : i ≤ u.length) :
    wCtx pw (u ++ v) i = wCtx pw u i := by
  cases i with
  | zero => rfl
  | succ j =>
    rw [wCtx_succ, wCtx_succ, wIdx_append_left]
    omega

theorem bdry_true_right (x : Bool) (h : bdry true x = true) : x = false := by
  revert h
  unfold bdry
  cases x <;> simp

theorem bdry_false_left (x : Bool) : bdry false x = x := by
  unfold bdry
  cases x <;> rfl

/-! ## CleanAt basics -/

theorem cleanAt_cons (f : Bool → List Char → Option Nat) (pw : Bool)
    (c : Char) (r : List Char) :
    CleanAt f pw (c :: r) ↔ f pw (c :: r) = none ∧ CleanAt f (isWordChar c) r := by
  constructor
  · intro h
    refine ⟨h 0, fun i => ?_⟩
    have := h (i + 1)
    rwa [wCtx_cons, List.drop_succ_cons] at this
  · rintro ⟨h0, h⟩ i
    cases i with
    | zero => exact h0
    | succ j =>
      rw [wCtx_cons, List.drop_succ_cons]
      exact h j

theorem CleanAt.dropSuffix {f : Bool → List Char → Option Nat} {pw : Bool}
    {s : List Char} (h : CleanAt f pw s) (k : Nat) :
    CleanAt f (wCtx pw s k) (s.drop k) := by
  intro i
  rw [List.drop_drop, wCtx_drop]
  exact h (k + i)

/-! ## Scan-function basics: fuel irrelevance and unfolding -/

theorem countMatchF_fuel (f : Bool → List Char → Option Nat) :
    ∀ fuel1 : Nat, ∀ fuel2 pw : _, ∀ s : List Char,
    s.length ≤ fuel1 → s.length ≤ fuel2 →
    countMatchF f fuel1 pw s = countMatchF f fuel2 pw s := by
  intro fuel1
  induction fuel1 with
  | zero =>
    intro fuel2 pw s h1 _
    have : s = [] := List.length_eq_zero.mp (Nat.le_zero.mp h1)
    subst this
    cases fuel2 <;> rfl
  | succ f1 ih =>
    intro fuel2 pw s h1 h2
    cases s with
    | nil => cases fuel2 <;> rfl
    | cons c r =>
      cases fuel2 with
      | zero => simp at h2
      | succ f2 =>
        simp only [List.length_cons, Nat.succ_le_succ_iff] at h1 h2
        show countMatchF f (f1 + 1) pw (c :: r) = countMatchF f (f2 + 1) pw (c :: r)
        unfold countMatchF
        rcases h : f pw (c :: r) with _ | n
        · simpa using ih f2 (isWordChar c) r h1 h2
        · have hd : (r.drop (n - 1)).length ≤ r.length := by
            rw [List.length_drop]; omega
          have hr := ih f2 (wIdx (c :: r) (n - 1)) (r.drop (n - 1)) (le_trans hd h1) (le_trans hd h2)
          simp only [hr]

theorem subOneF_fuel (f : Bool → List Char → Option Nat) (tok : List Char) :
    ∀ fuel1 : Nat, ∀ fuel2 pw : _, ∀ s : List Char,
    s.length ≤ fuel1 → s.length ≤ fuel2 →
    subOneF f tok fuel1 pw s = subOneF f tok fuel2 pw s := by
  intro fuel1
  induction fuel1 with
  | zero =>
    intro fuel2 pw s h1 _
    have : s = [] := List.length_eq_zero.mp (Nat.le_zero.mp h1)
    subst this
    cases fuel2 <;> rfl
  | succ f1 ih =>
    intro fuel2 pw s h1 h2
    cases s with
    | nil => cases fuel2 <;> rfl
    | cons c r =>
      cases fuel2 with
      | zero => simp at h2
      | succ f2 =>
        simp only [List.length_cons, Nat.succ_le_succ_iff] at h1 h2
        show subOneF f tok (f1 + 1) pw (c :: r) = subOneF f tok (f2 + 1) pw (c :: r)
        unfold subOneF
        rcases h : f pw (c :: r) with _ | n
        · simp only [ih f2 (isWordChar c) r h1 h2]
        · have hd : (r.drop (n - 1)).length ≤ r.length := by
            rw [List.length_drop]; omega
          have hr := ih f2 (wIdx (c :: r) (n - 1)) (r.drop (n - 1)) (le_trans hd h1) (le_trans hd h2)
          simp only [hr]

theorem countMatch_nil (f : Bool → List Char → Option Nat) (pw : Bool) :
    countMatch f pw [] = 0 := rfl

theorem countMatch_cons (f : Bool → List Char → Option Nat) (pw : Bool)
    (c : Char) (r : List Char) :
    countMatch f pw (c :: r) =
      match f pw (c :: r) with
      | none => countMatch f (isWordChar c) r
      | some n => countMatch f (wIdx (c :: r) (n - 1)) (r.drop (n - 1)) + 1 := by
  show countMatchF f (r.length + 1) pw (c :: r) = _
  unfold countMatchF
  rcases h : f pw (c :: r) with _ | n
  · rfl
  · have hd : (r.drop (n - 1)).length ≤ r.length := by
      rw [List.length_drop]; omega
    have hr := countMatchF_fuel f r.length (r.drop (n - 1)).length (wIdx (c :: r) (n - 1))
      (r.drop (n - 1)) hd le_rfl
    simp only [hr]
    rfl

theorem subOne_nil (f : Bool → List Char → Option Nat) (tok : List Char) (pw : Bool) :
    subOne f tok pw [] = [] := rfl

theorem subOne_cons (f : Bool → List Char → Option Nat) (tok : List Char) (pw : Bool)
    (c : Char) (r : List Char) :
    subOne f tok pw (c :: r) =
      match f pw (c :: r) with
      | none => c :: subOne f tok (isWordChar c) r
      | some n => tok ++ subOne f tok (wIdx (c :: r) (n - 1)) (r.drop (n - 1)) := by
  show subOneF f tok (r.length + 1) pw (c :: r) = _
  unfold subOneF
  rcases h : f pw (c :: r) with _ | n
  · rfl
  · have hd : (r.drop (n - 1)).length ≤ r.length := by
      rw [List.length_drop]; omega
    have hr := subOneF_fuel f tok r.length (r.drop (n - 1)).length (wIdx (c :: r) (n - 1))
      (r.drop (n - 1)) hd le_rfl
    simp only [hr]
    rfl

/-! ## Parser-combinator lemmas -/

theorem eatDigits_sound :
    ∀ (k : Nat) (s r : List Char), eatDigits k s = some r →
      ∃ pre, s = pre ++ r ∧ pre.length = k ∧ allDigits pre := by
  intro k
  induction k with
  | zero =>
    intro s r h
    simp only [eatDigits] at h
    injection h with h
    exact ⟨[], by rw [h]; rfl, rfl, by intro c hc; cases hc⟩
  | succ n ih =>
    intro s r h
    cases s with
    | nil => cases h
    | cons c cs =>
      simp only [eatDigits] at h
      by_cases hc : c.isDigit
      · rw [if_pos hc] at h
        obtain ⟨pre, he, hl, hd⟩ := ih cs r h
        refine ⟨c :: pre, by rw [List.cons_append, he], by simp [hl], ?_⟩
        intro x hx
        rcases List.mem_cons.mp hx with hx | hx
        · rw [hx]; exact hc
        · exact hd x hx
      · rw [if_neg hc] at h
        cases h

theorem eatDigits_complete :
    ∀ (pre r : List Char), allDigits pre → eatDigits pre.length (pre ++ r) = some r := by
  intro pre
  induction pre with
  | nil => intro r _; rfl
  | cons c cs ih =>
    intro r hd
    have hc : c.isDigit = true := hd c (List.mem_cons_self c cs)
    simp only [List.length_cons, List.cons_append, eatDigits, hc, if_true]
    exact ih r (fun x hx => hd x (List.mem_cons_of_mem c hx))

theorem eatLit_sound (ch : Char) (s r : List Char) (h : eatLit ch s = some r) :
    s = ch :: r := by
  cases s with
  | nil => cases h
  | cons c cs =>
    simp only [eatLit] at h
    by_cases hc : c = ch
    · rw [if_pos hc] at h
      injection h with h
      rw [hc, h]
    · rw [if_neg hc] at h
      cases h

theorem eatLit_complete (ch : Char) (r : List Char) : eatLit ch (ch :: r) = some r := by
  simp [eatLit]

theorem eatSep_sound (sep : Char → Bool) (b : Bool) (s r : List Char)
    (h : eatSep sep b s = some r) :
    ∃ x, s = x ++ r ∧ optSep sep x ∧ x.length = (if b then 1 else 0) := by
  cases b with
  | false =>
    simp only [eatSep] at h
    rw [if_neg (by simp)] at h
    injection h with h
    refine ⟨[], ?_, Or.inl rfl, rfl⟩
    rw [h]
    rfl
  | true =>
    cases s with
    | nil => simp [eatSep] at h
    | cons c cs =>
      simp only [eatSep, if_pos rfl] at h
      by_cases hc : sep c
      · rw [if_pos hc] at h
        injection h with h
        exact ⟨[c], by rw [h]; rfl, Or.inr ⟨c, rfl, hc⟩, rfl⟩
      · rw [if_neg hc] at h
        cases h

theorem eatSep_complete_nil (sep : Char → Bool) (r : List Char) :
    eatSep sep false r = some r := rfl

theorem eatSep_complete_one (sep : Char → Bool) (c : Char) (r : List Char)
    (h : sep c = true) : eatSep sep true (c :: r) = some r := by
  simp [eatSep, h]

theorem isWordChar_of_digit (c : Char) (h : c.isDigit = true) : isWordChar c = true := by
  simp [isWordChar, h]

theorem wFirst_of_digits (w : List Char) (hd : allDigits w) (hne : w ≠ []) :
    wFirst w = true := by
  cases w with
  | nil => exact absurd rfl hne
  | cons c cs =>
    rw [wFirst_cons]
    exact isWordChar_of_digit c (hd c (List.mem_cons_self c cs))

theorem wLast_of_digits (w : List Char) (hd : allDigits w) (hne : w ≠ []) :
    wLast w = true := by
  have hlen : 0 < w.length := List.length_pos.mpr hne
  have hlt : w.length - 1 < w.length := by omega
  rw [wLast, wIdx, List.getElem?_eq_getElem hlt]
  exact isWordChar_of_digit _ (hd _ (List.getElem_mem hlt))

/-! ## Laws of the ssn matcher -/

theorem ssnCombo_sound (s : List Char) (n : Nat) (h : ssnCombo s = some n) :
    ∃ w r, s = w ++ r ∧ w.length = n ∧ ssnShape w ∧ wFirst r = false ∧
      wLast w = true ∧ wFirst w = true := by
  unfold ssnCombo at h
  rcases h1 : eatDigits 3 s with _ | s1
  · simp [h1] at h
  simp only [h1] at h
  rcases h2 : eatLit '-' s1 with _ | s2
  · simp [h2] at h
  simp only [h2] at h
  rcases h3 : eatDigits 2 s2 with _ | s3
  · simp [h3] at h
  simp only [h3] at h
  rcases h4 : eatLit '-' s3 with _ | s4
  · simp [h4] at h
  simp only [h4] at h
  rcases h5 : eatDigits 4 s4 with _ | s5
  · simp [h5] at h
  simp only [h5] at h
  rcases hw5 : wFirst s5 with _ | _
  · simp only [hw5, Bool.false_eq_true, if_false] at h
    injection h with h
    obtain ⟨a, hsa, hla, hda⟩ := eatDigits_sound 3 s s1 h1
    have hs1 := eatLit_sound '-' s1 s2 h2
    obtain ⟨b, hsb, hlb, hdb⟩ := eatDigits_sound 2 s2 s3 h3
    have hs3 := eatLit_sound '-' s3 s4 h4
    obtain ⟨cg, hsc, hlc, hdc⟩ := eatDigits_sound 4 s4 s5 h5
    have hane : a ≠ [] := by intro he; rw [he] at hla; cases hla
    have hcne : cg ≠ [] := by intro he; rw [he] at hlc; cases hlc
    refine ⟨a ++ '-' :: (b ++ '-' :: cg), s5, ?_, ?_, ⟨a, b, cg, rfl, hla, hlb, hlc, hda, hdb, hdc⟩,
      hw5, ?_, ?_⟩
    · rw [hsa, hs1, hsb, hs3, hsc]
      simp
    · rw [← h]
      simp [hla, hlb, hlc]
    · rw [show a ++ '-' :: (b ++ '-' :: cg) = (a ++ '-' :: (b ++ ['-'])) ++ cg by simp]
      rw [wLast_append _ _ hcne]
      exact wLast_of_digits cg hdc hcne
    · rw [wFirst_append _ _ hane]
      exact wFirst_of_digits a hda hane
  · simp [hw5] at h

theorem ssnCombo_complete (w rest : List Char) (hshape : ssnShape w)
    (hrf : wFirst rest = false) : ssnCombo (w ++ rest) = some 11 := by
  obtain ⟨a, b, cg, hw, hla, hlb, hlc, hda, hdb, hdc⟩ := hshape
  unfold ssnCombo
  rw [show w ++ rest = a ++ ('-' :: (b ++ ('-' :: (cg ++ rest)))) by rw [hw]; simp]
  simp only [← hla, ← hlb, ← hlc]
  simp only [eatDigits_complete, eatLit_complete, hda, hdb, hdc, hrf]
  simp

theorem ssnShape_len (w : List Char) (h : ssnShape w) : w.length = 11 := by
  obtain ⟨a, b, cg, hw, hla, hlb, hlc, _, _, _⟩ := h
  rw [hw]
  simp [hla, hlb, hlc]

theorem ssnShape_wLast (w : List Char) (h : ssnShape w) : wLast w = true := by
  obtain ⟨a, b, cg, hw, hla, hlb, hlc, _, _, hdc⟩ := h
  have hcne : cg ≠ [] := by intro he; rw [he] at hlc; cases hlc
  rw [hw, show a ++ '-' :: (b ++ '-' :: cg) = (a ++ '-' :: (b ++ ['-'])) ++ cg by simp]
  rw [wLast_append _ _ hcne]
  exact wLast_of_digits cg hdc hcne

theorem ssnMatch_laws : PatLaws ssnMatch ssnShape ssnCls digitKey := by
  refine ⟨?_, ?_, ?_, ?_⟩
  · intro pw s n h
    unfold ssnMatch at h
    by_cases hb : bdry pw (wFirst s) = true
    · rw [if_pos hb] at h
      obtain ⟨w, r, hs, hl, hshape, hrf, hwl, hwf⟩ := ssnCombo_sound s n h
      have htake : s.take n = w := by rw [hs, ← hl, List.take_left]
      have hdrop : s.drop n = r := by rw [hs, ← hl, List.drop_left]
      have hlen : n ≤ s.length := by rw [hs, List.length_append]; omega
      have hn1 : 1 ≤ n := by
        rw [← hl, ssnShape_len w hshape]
        omega
      refine ⟨hn1, hlen, by rw [htake]; exact hshape, ?_, ?_⟩
      · rw [htake]
        have hwne : w ≠ [] := by
          intro he
          have hl11 := ssnShape_len w hshape
          rw [he] at hl11
          cases hl11
        have : wFirst s = wFirst w := by rw [hs, wFirst_append _ _ hwne]
        rw [← this]
        exact hb
      · rw [htake, hdrop, hwl, hrf]
        rfl
    · rw [if_neg hb] at h
      cases h
  · intro pw w rest hshape hne hb1 hb2
    unfold ssnMatch
    rw [if_pos (by rw [wFirst_append _ _ hne]; exact hb1)]
    have hrf : wFirst rest = false := by
      rw [ssnShape_wLast w hshape] at hb2
      exact bdry_true_right _ hb2
    rw [ssnCombo_complete w rest hshape hrf]
    rfl
  · intro w hshape c hc
    obtain ⟨a, b, cg, hw, _, _, _, hda, hdb, hdc⟩ := hshape
    rw [hw] at hc
    unfold ssnCls
    simp only [List.mem_append, List.mem_cons] at hc
    rcases hc with hc | hc | hc | hc | hc
    · rw [hda c hc]; rfl
    · rw [hc]; simp
    · rw [hdb c hc]; rfl
    · rw [hc]; simp
    · rw [hdc c hc]; rfl
  · intro w hshape
    obtain ⟨a, b, cg, hw, hla, _, _, hda, _, _⟩ := hshape
    have hane : a ≠ [] := by intro he; rw [he] at hla; cases hla
    obtain ⟨c, hc⟩ := List.exists_mem_of_ne_nil a hane
    refine ⟨c, ?_, hda c hc⟩
    rw [hw]
    simp [hc]

/-! ## Laws of the phone matcher -/

theorem optSep_len (sep : Char → Bool) (x : List Char) (h : optSep sep x) :
    x.length = 0 ∨ x.length = 1 := by
  rcases h with h | ⟨c, h, _⟩
  · left; rw [h]; rfl
  · right; rw [h]; rfl

theorem phoneCombo_sound (s : List Char) (p1 p2 : Bool) (n : Nat)
    (h : phoneCombo s p1 p2 = some n) :
    ∃ w r, s = w ++ r ∧ w.length = n ∧ phoneShape w ∧ wFirst r = false ∧
      wLast w = true ∧ wFirst w = true := by
  unfold phoneCombo at h
  rcases h1 : eatDigits 3 s with _ | s1
  · simp [h1] at h
  simp only [h1] at h
  rcases h2 : eatSep isPhoneSep p1 s1 with _ | s2
  · simp [h2] at h
  simp only [h2] at h
  rcases h3 : eatDigits 3 s2 with _ | s3
  · simp [h3] at h
  simp only [h3] at h
  rcases h4 : eatSep isPhoneSep p2 s3 with _ | s4
  · simp [h4] at h
  simp only [h4] at h
  rcases h5 : eatDigits 4 s4 with _ | s5
  · simp [h5] at h
  simp only [h5] at h
  rcases hw5 : wFirst s5 with _ | _
  · simp only [hw5, Bool.false_eq_true, if_false] at h
    injection h with h
    obtain ⟨a, hsa, hla, hda⟩ := eatDigits_sound 3 s s1 h1
    obtain ⟨x, hsx, hox, hlx⟩ := eatSep_sound isPhoneSep p1 s1 s2 h2
    obtain ⟨b, hsb, hlb, hdb⟩ := eatDigits_sound 3 s2 s3 h3
    obtain ⟨y, hsy, hoy, hly⟩ := eatSep_sound isPhoneSep p2 s3 s4 h4
    obtain ⟨cg, hsc, hlc, hdc⟩ := eatDigits_sound 4 s4 s5 h5
    have hane : a ≠ [] := by intro he; rw [he] at hla; cases hla
    have hcne : cg ≠ [] := by intro he; rw [he] at hlc; cases hlc
    refine ⟨a ++ (x ++ (b ++ (y ++ cg))), s5, ?_, ?_,
      ⟨a, x, b, y, cg, rfl, hla, hlb, hlc, hda, hdb, hdc, hox, hoy⟩, hw5, ?_, ?_⟩
    · rw [hsa, hsx, hsb, hsy, hsc]
      simp
    · rw [← h]
      simp only [List.length_append, hla, hlb, hlc, hlx, hly]
      cases p1 <;> cases p2 <;> simp
    · rw [show a ++ (x ++ (b ++ (y ++ cg))) = (a ++ x ++ b ++ y) ++ cg by simp]
      rw [wLast_append _ _ hcne]
      exact wLast_of_digits cg hdc hcne
    · rw [wFirst_append _ _ hane]
      exact wFirst_of_digits a hda hane
  · simp [hw5] at h

theorem phoneShape_pos (w : List Char) (h : phoneShape w) : 1 ≤ w.length := by
  obtain ⟨a, x, b, y, cg, hw, hla, _, _, _, _, _, _, _⟩ := h
  rw [hw]
  simp only [List.length_append, hla]
  omega

theorem phoneShape_wLast (w : List Char) (h : phoneShape w) : wLast w = true := by
  obtain ⟨a, x, b, y, cg, hw, _, _, hlc, _, _, hdc, _, _⟩ := h
  have hcne : cg ≠ [] := by intro he; rw [he] at hlc; cases hlc
  rw [hw, show a ++ (x ++ (b ++ (y ++ cg))) = (a ++ x ++ b ++ y) ++ cg by simp]
  rw [wLast_append _ _ hcne]
  exact wLast_of_digits cg hdc hcne

theorem phoneShape_wFirst (w : List Char) (h : phoneShape w) : wFirst w = true := by
  obtain ⟨a, x, b, y, cg, hw, hla, _, _, hda, _, _, _, _⟩ := h
  have hane : a ≠ [] := by intro he; rw [he] at hla; cases hla
  rw [hw, wFirst_append _ _ hane]
  exact wFirst_of_digits a hda hane

theorem phoneTry_sound :
    ∀ (combos : List (Bool × Bool)) (s : List Char) (n : Nat),
      phoneTry s combos = some n → ∃ p1 p2, phoneCombo s p1 p2 = some n := by
  intro combos
  induction combos with
  | nil => intro s n h; cases h
  | cons q rest ih =>
    intro s n h
    obtain ⟨q1, q2⟩ := q
    unfold phoneTry at h
    rcases hq : phoneCombo s q1 q2 with _ | m
    · rw [hq] at h
      exact ih s n h
    · rw [hq] at h
      injection h with h
      exact ⟨q1, q2, by rw [hq, h]⟩

theorem phoneTry_isSome :
    ∀ (combos : List (Bool × Bool)) (s : List Char) (p1 p2 : Bool) (n : Nat),
      (p1, p2) ∈ combos → phoneCombo s p1 p2 = some n →
      (phoneTry s combos).isSome = true := by
  intro combos
  induction combos with
  | nil =>
    intro s p1 p2 n hmem _
    cases hmem
  | cons q rest ih =>
    intro s p1 p2 n hmem hc
    obtain ⟨q1, q2⟩ := q
    unfold phoneTry
    rcases hq : phoneCombo s q1 q2 with _ | m
    · rcases List.mem_cons.mp hmem with heq | hmem'
      · injection heq with e1 e2
        rw [e1, e2] at hc
        rw [hc] at hq
        cases hq
      · exact ih s p1 p2 n hmem' hc
    · rfl

theorem phoneCombo_complete (w rest : List Char) (hshape : phoneShape w)
    (hrf : wFirst rest = false) :
    ∃ p1 p2 n, phoneCombo (w ++ rest) p1 p2 = some n := by
  obtain ⟨a, x, b, y, cg, hw, hla, hlb, hlc, hda, hdb, hdc, hox, hoy⟩ := hshape
  have ea : ∀ X, eatDigits 3 (a ++ X) = some X := fun X => by
    rw [← hla]; exact eatDigits_complete a X hda
  have eb : ∀ X, eatDigits 3 (b ++ X) = some X := fun X => by
    rw [← hlb]; exact eatDigits_complete b X hdb
  have ec : ∀ X, eatDigits 4 (cg ++ X) = some X := fun X => by
    rw [← hlc]; exact eatDigits_complete cg X hdc
  rcases hox with hx | ⟨cx, hx, hcx⟩ <;> rcases hoy with hy | ⟨cy, hy, hcy⟩
  · refine ⟨false, false, 10, ?_⟩
    unfold phoneCombo
    rw [show w ++ rest = a ++ (b ++ (cg ++ rest)) by rw [hw, hx, hy]; simp]
    simp only [ea, eb, ec, eatSep_complete_nil, hrf]
    simp
  · refine ⟨false, true, 11, ?_⟩
    unfold phoneCombo
    rw [show w ++ rest = a ++ (b ++ (cy :: (cg ++ rest))) by rw [hw, hx, hy]; simp]
    simp only [ea, eb, ec, eatSep_complete_nil, eatSep_complete_one _ _ _ hcy, hrf]
    simp
  · refine ⟨true, false, 11, ?_⟩
    unfold phoneCombo
    rw [show w ++ rest = a ++ (cx :: (b ++ (cg ++ rest))) by rw [hw, hx, hy]; simp]
    simp only [ea, eb, ec, eatSep_complete_nil, eatSep_complete_one _ _ _ hcx, hrf]
    simp
  · refine ⟨true, true, 12, ?_⟩
    unfold phoneCombo
    rw [show w ++ rest = a ++ (cx :: (b ++ (cy :: (cg ++ rest)))) by rw [hw, hx, hy]; simp]
    simp only [ea, eb, ec, eatSep_complete_one _ _ _ hcx,
      eatSep_complete_one _ _ _ hcy, hrf]
    simp

theorem phoneMatch_laws : PatLaws phoneMatch phoneShape phoneCls digitKey := by
  refine ⟨?_, ?_, ?_, ?_⟩
  · intro pw s n h
    unfold phoneMatch at h
    by_cases hb : bdry pw (wFirst s) = true
    · rw [if_pos hb] at h
      obtain ⟨p1, p2, hc⟩ := phoneTry_sound _ s n h
      obtain ⟨w, r, hs, hl, hshape, hrf, hwl, hwf⟩ := phoneCombo_sound s p1 p2 n hc
      have htake : s.take n = w := by rw [hs, ← hl, List.take_left]
      have hdrop : s.drop n = r := by rw [hs, ← hl, List.drop_left]
      have hlen : n ≤ s.length := by rw [hs, List.length_append]; omega
      have hn1 : 1 ≤ n := by
        rw [← hl]
        exact phoneShape_pos w hshape
      refine ⟨hn1, hlen, by rw [htake]; exact hshape, ?_, ?_⟩
      · rw [htake]
        have hwne : w ≠ [] := by
          intro he
          have := phoneShape_pos w hshape
          rw [he] at this
          cases this
        have : wFirst s = wFirst w := by rw [hs, wFirst_append _ _ hwne]
        rw [← this]
        exact hb
      · rw [htake, hdrop, hwl, hrf]
        rfl
    · rw [if_neg hb] at h
      cases h
  · intro pw w rest hshape hne hb1 hb2
    unfold phoneMatch
    rw [if_pos (by rw [wFirst_append _ _ hne]; exact hb1)]
    have hrf : wFirst rest = false := by
      rw [phoneShape_wLast w hshape] at hb2
      exact bdry_true_right _ hb2
    obtain ⟨p1, p2, n, hc⟩ := phoneCombo_complete w rest hshape hrf
    exact phoneTry_isSome _ _ p1 p2 n (by cases p1 <;> cases p2 <;> simp) hc
  · intro w hshape c hc
    obtain ⟨a, x, b, y, cg, hw, _, _, _, hda, hdb, hdc, hox, hoy⟩ := hshape
    rw [hw] at hc
    unfold phoneCls
    simp only [List.mem_append] at hc
    rcases hc with hc | hc | hc | hc | hc
    · rw [hda c hc]; rfl
    · rcases hox with hx | ⟨cx, hx, hcx⟩
      · rw [hx] at hc; cases hc
      · rw [hx] at hc
        rcases List.mem_cons.mp hc with hc | hc
        · rw [hc, hcx]; simp
        · cases hc
    · rw [hdb c hc]; rfl
    · rcases hoy with hy | ⟨cy, hy, hcy⟩
      · rw [hy] at hc; cases hc
      · rw [hy] at hc
        rcases List.mem_cons.mp hc with hc | hc
        · rw [hc, hcy]; simp
        · cases hc
    · rw [hdc c hc]; rfl
  · intro w hshape
    obtain ⟨a, x, b, y, cg, hw, hla, _, _, hda, _, _, _, _⟩ := hshape
    have hane : a ≠ [] := by intro he; rw [he] at hla; cases hla
    obtain ⟨c, hc⟩ := List.exists_mem_of_ne_nil a hane
    refine ⟨c, ?_, hda c hc⟩
    rw [hw]
    simp [hc]

/-! ## Laws of the card matcher -/

theorem cardCombo_sound (s : List Char) (p1 p2 p3 : Bool) (n : Nat)
    (h : cardCombo s p1 p2 p3 = some n) :
    ∃ w r, s = w ++ r ∧ w.length = n ∧ cardShape w ∧ wFirst r = false ∧
      wLast w = true ∧ wFirst w = true := by
  unfold cardCombo at h
  rcases h1 : eatDigits 4 s with _ | s1
  · simp [h1] at h
  simp only [h1] at h
  rcases h2 : eatSep isCardSep p1 s1 with _ | s2
  · simp [h2] at h
  simp only [h2] at h
  rcases h3 : eatDigits 4 s2 with _ | s3
  · simp [h3] at h
  simp only [h3] at h
  rcases h4 : eatSep isCardSep p2 s3 with _ | s4
  · simp [h4] at h
  simp only [h4] at h
  rcases h5 : eatDigits 4 s4 with _ | s5
  · simp [h5] at h
  simp only [h5] at h
  rcases h6 : eatSep isCardSep p3 s5 with _ | s6
  · simp [h6] at h
  simp only [h6] at h
  rcases h7 : eatDigits 4 s6 with _ | s7
  · simp [h7] at h
  simp only [h7] at h
  rcases hw7 : wFirst s7 with _ | _
  · simp only [hw7, Bool.false_eq_true, if_false] at h
    injection h with h
    obtain ⟨a, hsa, hla, hda⟩ := eatDigits_sound 4 s s1 h1
    obtain ⟨x, hsx, hox, hlx⟩ := eatSep_sound isCardSep p1 s1 s2 h2
    obtain ⟨b, hsb, hlb, hdb⟩ := eatDigits_sound 4 s2 s3 h3
    obtain ⟨y, hsy, hoy, hly⟩ := eatSep_sound isCardSep p2 s3 s4 h4
    obtain ⟨cg, hsc, hlc, hdc⟩ := eatDigits_sound 4 s4 s5 h5
    obtain ⟨z, hsz, hoz, hlz⟩ := eatSep_sound isCardSep p3 s5 s6 h6
    obtain ⟨d, hsd, hld, hdd⟩ := eatDigits_sound 4 s6 s7 h7
    have hane : a ≠ [] := by intro he; rw [he] at hla; cases hla
    have hdne : d ≠ [] := by intro he; rw [he] at hld; cases hld
    refine ⟨a ++ (x ++ (b ++ (y ++ (cg ++ (z ++ d))))), s7, ?_, ?_,
      ⟨a, x, b, y, cg, z, d, rfl, hla, hlb, hlc, hld, hda, hdb, hdc, hdd, hox, hoy, hoz⟩,
      hw7, ?_, ?_⟩
    · rw [hsa, hsx, hsb, hsy, hsc, hsz, hsd]
      simp
    · rw [← h]
      simp only [List.length_append, hla, hlb, hlc, hld, hlx, hly, hlz]
      cases p1 <;> cases p2 <;> cases p3 <;> simp
    · rw [show a ++ (x ++ (b ++ (y ++ (cg ++ (z ++ d))))) =
          (a ++ x ++ b ++ y ++ cg ++ z) ++ d by simp]
      rw [wLast_append _ _ hdne]
      exact wLast_of_digits d hdd hdne
    · rw [wFirst_append _ _ hane]
      exact wFirst_of_digits a hda hane
  · simp [hw7] at h

theorem cardShape_pos (w : List Char) (h : cardShape w) : 1 ≤ w.length := by
  obtain ⟨a, x, b, y, cg, z, d, hw, hla, _, _, _, _, _, _, _, _, _, _⟩ := h
  rw [hw]
  simp only [List.length_append, hla]
  omega

theorem cardShape_wLast (w : List Char) (h : cardShape w) : wLast w = true := by
  obtain ⟨a, x, b, y, cg, z, d, hw, _, _, _, hld, _, _, _, hdd, _, _, _⟩ := h
  have hdne : d ≠ [] := by intro he; rw [he] at hld; cases hld
  rw [hw, show a ++ (x ++ (b ++ (y ++ (cg ++ (z ++ d))))) =
      (a ++ x ++ b ++ y ++ cg ++ z) ++ d by simp]
  rw [wLast_append _ _ hdne]
  exact wLast_of_digits d hdd hdne

theorem cardTry_sound :
    ∀ (combos : List (Bool × Bool × Bool)) (s : List Char) (n : Nat),
      cardTry s combos = some n → ∃ p1 p2 p3, cardCombo s p1 p2 p3 = some n := by
  intro combos
  induction combos with
  | nil => intro s n h; cases h
  | cons q rest ih =>
    intro s n h
    obtain ⟨q1, q2, q3⟩ := q
    unfold cardTry at h
    rcases hq : cardCombo s q1 q2 q3 with _ | m
    · rw [hq] at h
      exact ih s n h
    · rw [hq] at h
      injection h with h
      exact ⟨q1, q2, q3, by rw [hq, h]⟩

theorem cardTry_isSome :
    ∀ (combos : List (Bool × Bool × Bool)) (s : List Char) (p1 p2 p3 : Bool) (n : Nat),
      (p1, p2, p3) ∈ combos → cardCombo s p1 p2 p3 = some n →
      (cardTry s combos).isSome = true := by
  intro combos
  induction combos with
  | nil =>
    intro s p1 p2 p3 n hmem _
    cases hmem
  | cons q rest ih =>
    intro s p1 p2 p3 n hmem hc
    obtain ⟨q1, q2, q3⟩ := q
    unfold cardTry
    rcases hq : cardCombo s q1 q2 q3 with _ | m
    · rcases List.mem_cons.mp hmem with heq | hmem'
      · injection heq with e1 e23
        injection e23 with e2 e3
        rw [e1, e2, e3] at hc
        rw [hc] at hq
        cases hq
      · exact ih s p1 p2 p3 n hmem' hc
    · rfl

theorem cardCombo_complete (w rest : List Char) (hshape : cardShape w)
    (hrf : wFirst rest = false) :
    ∃ p1 p2 p3 n, cardCombo (w ++ rest) p1 p2 p3 = some n := by
  obtain ⟨a, x, b, y, cg, z, d, hw, hla, hlb, hlc, hld, hda, hdb, hdc, hdd,
    hox, hoy, hoz⟩ := hshape
  have ea : ∀ X, eatDigits 4 (a ++ X) = some X := fun X => by
    rw [← hla]; exact eatDigits_complete a X hda
  have eb : ∀ X, eatDigits 4 (b ++ X) = some X := fun X => by
    rw [← hlb]; exact eatDigits_complete b X hdb
  have ec : ∀ X, eatDigits 4 (cg ++ X) = some X := fun X => by
    rw [← hlc]; exact eatDigits_complete cg X hdc
  have ed : ∀ X, eatDigits 4 (d ++ X) = some X := fun X => by
    rw [← hld]; exact eatDigits_complete d X hdd
  rcases hox with hx | ⟨cx, hx, hcx⟩ <;> rcases hoy with hy | ⟨cy, hy, hcy⟩ <;>
    rcases hoz with hz | ⟨cz, hz, hcz⟩
  · refine ⟨false, false, false, 16, ?_⟩
    unfold cardCombo
    rw [show w ++ rest = a ++ (b ++ (cg ++ (d ++ rest))) by rw [hw, hx, hy, hz]; simp]
    simp only [ea, eb, ec, ed, eatSep_complete_nil, hrf]
    simp
  · refine ⟨false, false, true, 17, ?_⟩
    unfold cardCombo
    rw [show w ++ rest = a ++ (b ++ (cg ++ (cz :: (d ++ rest)))) by
      rw [hw, hx, hy, hz]; simp]
    simp only [ea, eb, ec, ed, eatSep_complete_nil, eatSep_complete_one _ _ _ hcz, hrf]
    simp
  · refine ⟨false, true, false, 17, ?_⟩
    unfold cardCombo
    rw [show w ++ rest = a ++ (b ++ (cy :: (cg ++ (d ++ rest)))) by
      rw [hw, hx, hy, hz]; simp]
    simp only [ea, eb, ec, ed, eatSep_complete_nil, eatSep_complete_one _ _ _ hcy, hrf]
    simp
  · refine ⟨false, true, true, 18, ?_⟩
    unfold cardCombo
    rw [show w ++ rest = a ++ (b ++ (cy :: (cg ++ (cz :: (d ++ rest))))) by
      rw [hw, hx, hy, hz]; simp]
    simp only [ea, eb, ec, ed, eatSep_complete_nil, eatSep_complete_one _ _ _ hcy,
      eatSep_complete_one _ _ _ hcz, hrf]
    simp
  · refine ⟨true, false, false, 17, ?_⟩
    unfold cardCombo
    rw [show w ++ rest = a ++ (cx :: (b ++ (cg ++ (d ++ rest)))) by
      rw [hw, hx, hy, hz]; simp]
    simp only [ea, eb, ec, ed, eatSep_complete_nil, eatSep_complete_one _ _ _ hcx, hrf]
    simp
  · refine ⟨true, false, true, 18, ?_⟩
    unfold cardCombo
    rw [show w ++ rest = a ++ (cx :: (b ++ (cg ++ (cz :: (d ++ rest))))) by
      rw [hw, hx, hy, hz]; simp]
    simp only [ea, eb, ec, ed, eatSep_complete_nil, eatSep_complete_one _ _ _ hcx,
      eatSep_complete_one _ _ _ hcz, hrf]
    simp
  · refine ⟨true, true, false, 18, ?_⟩
    unfold cardCombo
    rw [show w ++ rest = a ++ (cx :: (b ++ (cy :: (cg ++ (d ++ rest))))) by
      rw [hw, hx, hy, hz]; simp]
    simp only [ea, eb, ec, ed, eatSep_complete_nil, eatSep_complete_one _ _ _ hcx,
      eatSep_complete_one _ _ _ hcy, hrf]
    simp
  · refine ⟨true, true, true, 19, ?_⟩
    unfold cardCombo
    rw [show w ++ rest = a ++ (cx :: (b ++ (cy :: (cg ++ (cz :: (d ++ rest)))))) by
      rw [hw, hx, hy, hz]; simp]
    simp only [ea, eb, ec, ed, eatSep_complete_one _ _ _ hcx,
      eatSep_complete_one _ _ _ hcy, eatSep_complete_one _ _ _ hcz, hrf]
    simp

theorem cardMatch_laws : PatLaws cardMatch cardShape cardCls digitKey := by
  refine ⟨?_, ?_, ?_, ?_⟩
  · intro pw s n h
    unfold cardMatch at h
    by_cases hb : bdry pw (wFirst s) = true
    · rw [if_pos hb] at h
      obtain ⟨p1, p2, p3, hc⟩ := cardTry_sound _ s n h
      obtain ⟨w, r, hs, hl, hshape, hrf, hwl, hwf⟩ := cardCombo_sound s p1 p2 p3 n hc
      have htake : s.take n = w := by rw [hs, ← hl, List.take_left]
      have hdrop : s.drop n = r := by rw [hs, ← hl, List.drop_left]
      have hlen : n ≤ s.length := by rw [hs, List.length_append]; omega
      have hn1 : 1 ≤ n := by
        rw [← hl]
        exact cardShape_pos w hshape
      refine ⟨hn1, hlen, by rw [htake]; exact hshape, ?_, ?_⟩
      · rw [htake]
        have hwne : w ≠ [] := by
          intro he
          have := cardShape_pos w hshape
          rw [he] at this
          cases this
        have : wFirst s = wFirst w := by rw [hs, wFirst_append _ _ hwne]
        rw [← this]
        exact hb
      · rw [htake, hdrop, hwl, hrf]
        rfl
    · rw [if_neg hb] at h
      cases h
  · intro pw w rest hshape hne hb1 hb2
    unfold cardMatch
    rw [if_pos (by rw [wFirst_append _ _ hne]; exact hb1)]
    have hrf : wFirst rest = false := by
      rw [cardShape_wLast w hshape] at hb2
      exact bdry_true_right _ hb2
    obtain ⟨p1, p2, p3, n, hc⟩ := cardCombo_complete w rest hshape hrf
    exact cardTry_isSome _ _ p1 p2 p3 n (by cases p1 <;> cases p2 <;> cases p3 <;> simp) hc
  · intro w hshape c hc
    obtain ⟨a, x, b, y, cg, z, d, hw, _, _, _, _, hda, hdb, hdc, hdd, hox, hoy, hoz⟩ := hshape
    rw [hw] at hc
    unfold cardCls
    simp only [List.mem_append] at hc
    rcases hc with hc | hc | hc | hc | hc | hc | hc
    · rw [hda c hc]; rfl
    · rcases hox with hx | ⟨cx, hx, hcx⟩
      · rw [hx] at hc; cases hc
      · rw [hx] at hc
        rcases List.mem_cons.mp hc with hc | hc
        · rw [hc, hcx]; simp
        · cases hc
    · rw [hdb c hc]; rfl
    · rcases hoy with hy | ⟨cy, hy, hcy⟩
      · rw [hy] at hc; cases hc
      · rw [hy] at hc
        rcases List.mem_cons.mp hc with hc | hc
        · rw [hc, hcy]; simp
        · cases hc
    · rw [hdc c hc]; rfl
    · rcases hoz with hz | ⟨cz, hz, hcz⟩
      · rw [hz] at hc; cases hc
      · rw [hz] at hc
        rcases List.mem_cons.mp hc with hc | hc
        · rw [hc, hcz]; simp
        · cases hc
    · rw [hdd c hc]; rfl
  · intro w hshape
    obtain ⟨a, x, b, y, cg, z, d, hw, hla, _, _, _, hda, _, _, _, _, _, _⟩ := hshape
    have hane : a ≠ [] := by intro he; rw [he] at hla; cases hla
    obtain ⟨c, hc⟩ := List.exists_mem_of_ne_nil a hane
    refine ⟨c, ?_, hda c hc⟩
    rw [hw]
    simp [hc]

/-! ## Laws of the email matcher: run and backtracking lemmas -/

theorem takeWhile_append_all (p : Char → Bool) :
    ∀ (l r : List Char), (∀ x ∈ l, p x = true) →
      List.takeWhile p (l ++ r) = l ++ List.takeWhile p r := by
  intro l
  induction l with
  | nil => intro r _; rfl
  | cons c cs ih =>
    intro r hall
    rw [List.cons_append, List.takeWhile_cons_of_pos (hall c (List.mem_cons_self c cs))]
    rw [ih r (fun x hx => hall x (List.mem_cons_of_mem c hx))]
    rfl

theorem takeWhile_split (p : Char → Bool) (s : List Char) :
    s = s.takeWhile p ++ s.drop (s.takeWhile p).length := by
  have h := List.prefix_iff_eq_take.mp (List.takeWhile_prefix p (l := s))
  conv_lhs => rw [← List.take_append_drop (s.takeWhile p).length s]
  rw [← h]

theorem takeWhile_sat (p : Char → Bool) (s : List Char) (k : Nat)
    (hk : k ≤ (s.takeWhile p).length) : ∀ c ∈ s.take k, p c = true := by
  intro c hc
  have h := List.prefix_iff_eq_take.mp (List.takeWhile_prefix p (l := s))
  have : s.take k = (s.takeWhile p).take k := by
    conv_lhs => rw [takeWhile_split p s]
    rw [List.take_append_of_le_length hk]
  rw [this] at hc
  exact List.mem_takeWhile_imp (List.take_subset k _ hc)

theorem tldTry_sound (v : List Char) :
    ∀ (kmax k : Nat), tldTry v kmax = some k →
      2 ≤ k ∧ k ≤ kmax ∧ bdry (wIdx v (k - 1)) (wIdx v k) = true := by
  intro kmax
  induction kmax with
  | zero => intro k h; cases h
  | succ km ih =>
    intro k h
    match km, h with
    | 0, h => cases h
    | km' + 1, h =>
      rw [tldTry] at h
      by_cases hb : bdry (wIdx v (km' + 1)) (wIdx v (km' + 2)) = true
      · rw [if_pos hb] at h
        injection h with h
        subst h
        exact ⟨by omega, le_rfl, by simpa using hb⟩
      · rw [if_neg hb] at h
        obtain ⟨h1, h2, h3⟩ := ih k h
        exact ⟨h1, by omega, h3⟩

theorem tldTry_isSome (v : List Char) :
    ∀ (kmax k₀ : Nat), 2 ≤ k₀ → k₀ ≤ kmax →
      bdry (wIdx v (k₀ - 1)) (wIdx v k₀) = true → (tldTry v kmax).isSome = true := by
  intro kmax
  induction kmax with
  | zero => intro k₀ h2 hle _; omega
  | succ km ih =>
    intro k₀ h2 hle hb
    match km with
    | 0 => omega
    | km' + 1 =>
      rw [tldTry]
      by_cases hbt : bdry (wIdx v (km' + 1)) (wIdx v (km' + 2)) = true
      · rw [if_pos hbt]
        rfl
      · rw [if_neg hbt]
        rcases Nat.lt_or_ge k₀ (km' + 2) with hlt | hge
        · exact ih k₀ h2 (by omega) hb
        · exfalso
          have : k₀ = km' + 2 := by omega
          subst this
          simp only [show km' + 2 - 1 = km' + 1 by omega] at hb
          exact hbt hb

theorem domTry_sound (u : List Char) :
    ∀ (jm t : Nat), domTry u jm = some t →
      ∃ dlen k, 1 ≤ dlen ∧ dlen ≤ jm ∧ u[dlen]? = some '.' ∧
        tldMatch (u.drop (dlen + 1)) = some k ∧ t = dlen + 1 + k := by
  intro jm
  induction jm with
  | zero => intro t h; cases h
  | succ j ih =>
    intro t h
    rw [domTry] at h
    by_cases hdot : u[j + 1]? = some '.'
    · rw [if_pos hdot] at h
      rcases htld : tldMatch (u.drop (j + 2)) with _ | k
      · rw [htld] at h
        obtain ⟨dlen, k, h1, h2, h3, h4, h5⟩ := ih t h
        exact ⟨dlen, k, h1, by omega, h3, h4, h5⟩
      · rw [htld] at h
        injection h with h
        exact ⟨j + 1, k, by omega, le_rfl, hdot, by rwa [show j + 1 + 1 = j + 2 by omega],
          by omega⟩
    · rw [if_neg hdot] at h
      obtain ⟨dlen, k, h1, h2, h3, h4, h5⟩ := ih t h
      exact ⟨dlen, k, h1, by omega, h3, h4, h5⟩

theorem domTry_isSome (u : List Char) :
    ∀ (jm d₀ : Nat), 1 ≤ d₀ → d₀ ≤ jm → u[d₀]? = some '.' →
      (tldMatch (u.drop (d₀ + 1))).isSome = true → (domTry u jm).isSome = true := by
  intro jm
  induction jm with
  | zero => intro d₀ h1 hle _ _; omega
  | succ j ih =>
    intro d₀ h1 hle hdot htld
    rw [domTry]
    by_cases hd : u[j + 1]? = some '.'
    · rw [if_pos hd]
      rcases ht : tldMatch (u.drop (j + 2)) with _ | k
      · rcases Nat.lt_or_ge d₀ (j + 1) with hlt | hge
        · exact ih d₀ h1 (by omega) hdot htld
        · exfalso
          have he : d₀ = j + 1 := by omega
          rw [he, show j + 1 + 1 = j + 2 by omega] at htld
          rw [ht] at htld
          cases htld
      · rfl
    · rcases Nat.lt_or_ge d₀ (j + 1) with hlt | hge
      · rw [if_neg hd]
        exact ih d₀ h1 (by omega) hdot htld
      · exfalso
        have he : d₀ = j + 1 := by omega
        rw [he] at hdot
        exact hd hdot

theorem isLocalChar_of_domain (c : Char) (h : isDomainChar c = true) :
    isLocalChar c = true := by
  simp only [isDomainChar, Bool.or_eq_true] at h
  simp only [isLocalChar, Bool.or_eq_true]
  tauto

theorem emailMatch_sound (pw : Bool) (s : List Char) (n : Nat)
    (h : emailMatch pw s = some n) :
    1 ≤ n ∧ n ≤ s.length ∧ emailShape (s.take n) ∧
    bdry pw (wFirst (s.take n)) = true ∧
    bdry (wLast (s.take n)) (wFirst (s.drop n)) = true := by
  unfold emailMatch at h
  rcases hl : s.takeWhile isLocalChar with _ | ⟨c0, l'⟩
  · rw [hl] at h; cases h
  simp only [hl] at h
  by_cases hb : bdry pw (isWordChar c0) = true
  case neg => rw [if_neg hb] at h; cases h
  rw [if_pos hb] at h
  rcases hat : eatLit '@' (s.drop (c0 :: l').length) with _ | u
  · simp only [hat] at h
    cases h
  simp only [hat] at h
  rcases hdm : domMatch u with _ | k
  · simp [hdm] at h
  simp only [hdm] at h
  injection h with h
  unfold domMatch at hdm
  obtain ⟨dlen, kt, hd1, hd2, hdot, htld, hksum⟩ := domTry_sound u _ _ hdm
  unfold tldMatch at htld
  obtain ⟨ht2, htle, htb⟩ := tldTry_sound _ _ _ htld
  have hsplit : s = (c0 :: l') ++ '@' :: u := by
    have h1 := takeWhile_split isLocalChar s
    rw [hl] at h1
    rw [eatLit_sound '@' _ u hat] at h1
    exact h1
  have hrun_le : (u.takeWhile isDomainChar).length ≤ u.length :=
    (List.takeWhile_prefix _).length_le
  have hdlen_lt : dlen < u.length := by
    rcases List.getElem?_eq_some.mp hdot with ⟨hlt, _⟩
    exact hlt
  have husplit : u = u.take dlen ++ '.' :: u.drop (dlen + 1) := by
    conv_lhs => rw [← List.take_append_drop dlen u]
    congr 1
    rw [List.drop_eq_getElem_cons hdlen_lt]
    rcases List.getElem?_eq_some.mp hdot with ⟨hlt, hget⟩
    rw [hget]
  have hdall : ∀ c ∈ u.take dlen, isDomainChar c = true :=
    takeWhile_sat isDomainChar u dlen (by omega)
  have hdlen_len : (u.take dlen).length = dlen := by
    rw [List.length_take]
    omega
  have hdne : u.take dlen ≠ [] := by
    intro he
    rw [he] at hdlen_len
    simp at hdlen_len
    omega
  have hvrun_le : ((u.drop (dlen + 1)).takeWhile isTldChar).length ≤
      (u.drop (dlen + 1)).length := (List.takeWhile_prefix _).length_le
  have hvlen : kt ≤ (u.drop (dlen + 1)).length := by omega
  have htlen : ((u.drop (dlen + 1)).take kt).length = kt := by
    rw [List.length_take]
    omega
  have htall : ∀ c ∈ (u.drop (dlen + 1)).take kt, isTldChar c = true :=
    takeWhile_sat isTldChar (u.drop (dlen + 1)) kt (by omega)
  have htne : (u.drop (dlen + 1)).take kt ≠ [] := by
    intro he
    rw [he] at htlen
    simp at htlen
    omega
  have hWlen : ((c0 :: l') ++ '@' :: (u.take dlen ++ '.' ::
      (u.drop (dlen + 1)).take kt)).length = n := by
    simp only [List.length_append, List.length_cons, htlen, hdlen_len]
    simp only [List.length_cons] at h
    omega
  have hsW : s = ((c0 :: l') ++ '@' :: (u.take dlen ++ '.' ::
      (u.drop (dlen + 1)).take kt)) ++ (u.drop (dlen + 1)).drop kt := by
    rw [hsplit]
    conv_lhs => rw [husplit]
    have hv : u.drop (dlen + 1) =
        (u.drop (dlen + 1)).take kt ++ (u.drop (dlen + 1)).drop kt := by
      rw [List.take_append_drop]
    conv_lhs => rw [hv]
    simp
  have htake : s.take n = (c0 :: l') ++ '@' :: (u.take dlen ++ '.' ::
      (u.drop (dlen + 1)).take kt) := by
    rw [hsW, ← hWlen, List.take_left]
  have hdropn : s.drop n = (u.drop (dlen + 1)).drop kt := by
    rw [hsW, ← hWlen, List.drop_left]
  refine ⟨?_, ?_, ?_, ?_, ?_⟩
  · simp only [List.length_cons] at h
    omega
  · rw [hsW, List.length_append, hWlen]
    omega
  · rw [htake]
    refine ⟨c0 :: l', u.take dlen, (u.drop (dlen + 1)).take kt, rfl, by simp, ?_,
      hdne, hdall, by omega, htall⟩
    intro c hc
    rw [← hl] at hc
    exact List.mem_takeWhile_imp hc
  · rw [htake]
    rw [show (c0 :: l') ++ '@' :: (u.take dlen ++ '.' :: (u.drop (dlen + 1)).take kt) =
        c0 :: (l' ++ '@' :: (u.take dlen ++ '.' :: (u.drop (dlen + 1)).take kt)) by simp]
    rw [wFirst_cons]
    exact hb
  · rw [htake, hdropn]
    rw [show (c0 :: l') ++ '@' :: (u.take dlen ++ '.' :: (u.drop (dlen + 1)).take kt) =
        ((c0 :: l') ++ '@' :: (u.take dlen ++ ['.'])) ++ (u.drop (dlen + 1)).take kt by simp]
    rw [wLast_append _ _ htne]
    have e1 : wLast ((u.drop (dlen + 1)).take kt) = wIdx (u.drop (dlen + 1)) (kt - 1) :=
      wLast_take _ _ (by omega) hvlen
    have e2 : wFirst ((u.drop (dlen + 1)).drop kt) = wIdx (u.drop (dlen + 1)) kt :=
      wFirst_drop _ _
    rw [e1, e2]
    exact htb

theorem emailMatch_complete (pw : Bool) (w rest : List Char) (hshape : emailShape w)
    (hb1 : bdry pw (wFirst w) = true) (hb2 : bdry (wLast w) (wFirst rest) = true) :
    (emailMatch pw (w ++ rest)).isSome = true := by
  obtain ⟨l, d, t, hw, hlne, hlall, hdne, hdall, ht2, htall⟩ := hshape
  have hrun : (w ++ rest).takeWhile isLocalChar = l := by
    rw [hw]
    rw [show (l ++ '@' :: (d ++ '.' :: t)) ++ rest =
        l ++ '@' :: (d ++ '.' :: t ++ rest) by simp]
    rw [takeWhile_append_all isLocalChar l _ hlall]
    rw [List.takeWhile_cons_of_neg (by simp [isLocalChar])]
    simp
  rcases hlc : l with _ | ⟨c0, l'⟩
  · rw [hlc] at hlne; exact absurd rfl hlne
  rw [hlc] at hrun hw hlall
  unfold emailMatch
  simp only [hrun]
  rw [if_pos ?hbc]
  case hbc =>
    have hwf : wFirst w = isWordChar c0 := by
      rw [hw]
      rfl
    rw [← hwf]
    exact hb1
  have hdrop : (w ++ rest).drop (c0 :: l').length = '@' :: (d ++ '.' :: (t ++ rest)) := by
    rw [hw]
    rw [show ((c0 :: l') ++ '@' :: (d ++ '.' :: t)) ++ rest =
        (c0 :: l') ++ ('@' :: (d ++ '.' :: (t ++ rest))) by simp]
    rw [List.drop_left]
  simp only [hdrop, eatLit_complete]
  have htne : t ≠ [] := by
    intro he
    rw [he] at ht2
    simp at ht2
  have hdm : (domMatch (d ++ '.' :: (t ++ rest))).isSome = true := by
    unfold domMatch
    have hrun2 : (d ++ '.' :: (t ++ rest)).takeWhile isDomainChar =
        d ++ (('.' :: (t ++ rest)).takeWhile isDomainChar) :=
      takeWhile_append_all isDomainChar d _ hdall
    have hrunlen : d.length + 1 ≤
        ((d ++ '.' :: (t ++ rest)).takeWhile isDomainChar).length := by
      rw [hrun2, List.takeWhile_cons_of_pos (by simp [isDomainChar])]
      simp
    have hd1 : 1 ≤ d.length := List.length_pos.mpr hdne
    apply domTry_isSome _ _ d.length hd1 (by omega) ?hdot ?htld
    case hdot =>
      rw [List.getElem?_append_right le_rfl]
      simp
    case htld =>
      have hv : (d ++ '.' :: (t ++ rest)).drop (d.length + 1) = t ++ rest := by
        rw [show d ++ '.' :: (t ++ rest) = (d ++ ['.']) ++ (t ++ rest) by simp]
        rw [show d.length + 1 = (d ++ ['.']).length by simp]
        rw [List.drop_left]
      rw [hv]
      unfold tldMatch
      have htrun : (t ++ rest).takeWhile isTldChar = t ++ rest.takeWhile isTldChar :=
        takeWhile_append_all isTldChar t _ htall
      apply tldTry_isSome _ _ t.length ht2 (by rw [htrun]; simp)
      have e1 : wIdx (t ++ rest) (t.length - 1) = wLast t := by
        rw [wLast, wIdx_append_left]
        have := List.length_pos.mpr htne
        omega
      have e2 : wIdx (t ++ rest) t.length = wFirst rest := by
        rw [wIdx_append_right _ _ _ le_rfl]
        rw [wFirst_eq_wIdx]
        simp
      rw [e1, e2]
      have hwl : wLast w = wLast t := by
        rw [hw]
        rw [show (c0 :: l') ++ '@' :: (d ++ '.' :: t) =
            ((c0 :: l') ++ '@' :: (d ++ ['.'])) ++ t by simp]
        rw [wLast_append _ _ htne]
      rw [← hwl]
      exact hb2
  rcases hdm2 : domMatch (d ++ '.' :: (t ++ rest)) with _ | k
  · rw [hdm2] at hdm
    cases hdm
  simp only [hdm2]
  rfl

theorem emailMatch_laws : PatLaws emailMatch emailShape emailCls emailKey := by
  refine ⟨emailMatch_sound, ?_, ?_, ?_⟩
  · intro pw w rest hshape _ hb1 hb2
    exact emailMatch_complete pw w rest hshape hb1 hb2
  · intro w hshape c hc
    obtain ⟨l, d, t, hw, _, hlall, _, hdall, _, htall⟩ := hshape
    rw [hw] at hc
    unfold emailCls
    simp only [List.mem_append, List.mem_cons] at hc
    rcases hc with hc | hc | hc | hc | hc
    · simp [hlall c hc]
    · rw [hc]
      decide
    · simp [isLocalChar_of_domain c (hdall c hc)]
    · rw [hc]
      decide
    · simp [htall c hc]
  · intro w hshape
    obtain ⟨l, d, t, hw, _, _, _, _, _, _⟩ := hshape
    refine ⟨'@', ?_, by decide⟩
    rw [hw]
    simp

/-! ## Generic matcher lemmas and the scan decomposition -/

theorem matcher_nil_none (M : Bool → List Char → Option Nat)
    (hM : ∀ pw s n, M pw s = some n → 1 ≤ n ∧ n ≤ s.length) (pw : Bool) :
    M pw [] = none := by
  rcases h : M pw [] with _ | n
  · rfl
  · have := hM pw [] n h
    simp at this
    omega

theorem wFirst_take (s : List Char) (n : Nat) (h : 1 ≤ n) :
    wFirst (s.take n) = wFirst s := by
  cases s with
  | nil => simp
  | cons c r =>
    cases n with
    | zero => omega
    | succ m => rfl

/-- A matcher satisfying the soundness law never matches when the start
position is not a word boundary. -/
theorem matcher_none_of_bad_bdry {m : Bool → List Char → Option Nat}
    {Shape : List Char → Prop} {cls key : Char → Bool}
    (laws : PatLaws m Shape cls key) (pw : Bool) (s : List Char)
    (h : bdry pw (wFirst s) = false) : m pw s = none := by
  rcases hm : m pw s with _ | n
  · rfl
  · obtain ⟨h1, _, _, hb, _⟩ := laws.1 pw s n hm
    rw [wFirst_take s n h1] at hb
    rw [h] at hb
    cases hb

/-- A matcher satisfying the laws never matches starting inside a
redaction token: before reaching the closing bracket only token
characters (no key character) are available, and the closing bracket is
not in the pattern's character class. -/
theorem matcher_none_in_token {m : Bool → List Char → Option Nat}
    {Shape : List Char → Prop} {cls key : Char → Bool}
    (laws : PatLaws m Shape cls key) (u v : List Char) (pw : Bool)
    (hu : ∀ c ∈ u, key c = false) (hcls : cls ']' = false) :
    m pw (u ++ ']' :: v) = none := by
  rcases hm : m pw (u ++ ']' :: v) with _ | n
  · rfl
  exfalso
  obtain ⟨h1, h2, hs, _, _⟩ := laws.1 _ _ _ hm
  by_cases hn : n ≤ u.length
  · obtain ⟨c, hc, hkey⟩ := laws.2.2.2 _ hs
    have hcu : c ∈ u := by
      have : (u ++ ']' :: v).take n = u.take n := List.take_append_of_le_length hn
      rw [this] at hc
      exact List.take_subset n u hc
    rw [hu c hcu] at hkey
    cases hkey
  · have hmem : ']' ∈ (u ++ ']' :: v).take n := by
      rw [List.take_append_eq_append_take]
      have : (']' :: v).take (n - u.length) = ']' :: v.take (n - u.length - 1) := by
        cases hd : n - u.length with
        | zero => omega
        | succ k => simp
      rw [this]
      simp
    have := laws.2.2.1 _ hs ']' hmem
    rw [hcls] at this
    cases this

/-- Seam transfer: a match of the output text that ends exactly at an
inserted token's opening bracket transfers to a match of the original
text at the same position, because the `\b` of the replaced match forces
the word statuses to agree (`e` is the first character of the replaced
match, whose start boundary is `hb`). -/
theorem matcher_seam_transfer {m : Bool → List Char → Option Nat}
    {Shape : List Char → Prop} {cls key : Char → Bool}
    (laws : PatLaws m Shape cls key)
    (pre w₂ : List Char) (e : Char) (u : List Char) (pw : Bool) (n : Nat)
    (hcls : cls '[' = false)
    (hm : m pw (pre ++ '[' :: w₂) = some n)
    (hb : bdry (wLast pre) (isWordChar e) = true) :
    (m pw (pre ++ e :: u)).isSome = true := by
  obtain ⟨h1, h2, hs, hb1, hb2⟩ := laws.1 _ _ _ hm
  by_cases hn : n ≤ pre.length
  · have htake : (pre ++ '[' :: w₂).take n = pre.take n := List.take_append_of_le_length hn
    rw [htake] at hs hb1 hb2
    rcases Nat.lt_or_ge n pre.length with hlt | hge
    · -- the match ends strictly inside `pre`: all data agrees
      have hb2' : bdry (wLast (pre.take n)) (wFirst ((pre ++ e :: u).drop n)) = true := by
        have e1 : wFirst ((pre ++ '[' :: w₂).drop n) = wIdx pre n := by
          rw [wFirst_drop, wIdx_append_left _ _ _ hlt]
        have e2 : wFirst ((pre ++ e :: u).drop n) = wIdx pre n := by
          rw [wFirst_drop, wIdx_append_left _ _ _ hlt]
        rw [e2, ← e1]
        exact hb2
      have := laws.2.1 pw (pre.take n) ((pre.drop n) ++ e :: u) hs
        (by
          intro hemp
          rw [hemp] at hs
          have : (pre.take n).length = 0 := by rw [hemp]; rfl
          rw [List.length_take] at this
          have hplen : 1 ≤ pre.length := by omega
          omega)
        hb1 (by
          have : pre.take n ++ (pre.drop n ++ e :: u) = pre ++ e :: u := by
            rw [← List.append_assoc, List.take_append_drop]
          rw [show wFirst (pre.drop n ++ e :: u) = wFirst ((pre ++ e :: u).drop n) by
            rw [List.drop_append_of_le_length hn]]
          exact hb2')
      rwa [← List.append_assoc, List.take_append_drop] at this
    · -- the match ends exactly at the token: boundary forced to agree
      have hne : n = pre.length := by omega
      subst hne
      rw [List.take_length] at hs hb1 hb2
      have hpre : pre ≠ [] := by
        intro hemp
        rw [hemp] at h1
        simp at h1
      -- output-side end boundary: next char is '[', a non-word char
      have hout : wFirst ((pre ++ '[' :: w₂).drop pre.length) = false := by
        rw [wFirst_drop, wIdx_append_right _ _ _ le_rfl]
        simp [wIdx, isWordChar]
      rw [hout] at hb2
      -- so the last char of `pre` is a word char, and by `hb` the char `e` is not
      have hlast : wLast pre = true := by
        revert hb2
        unfold bdry
        cases wLast pre <;> simp
      rw [hlast] at hb
      have he : isWordChar e = false := by
        revert hb
        unfold bdry
        cases isWordChar e <;> simp
      have := laws.2.1 pw pre (e :: u) hs hpre hb1
        (by rw [hlast, wFirst_cons, he]; rfl)
      exact this
  · -- the match would contain the opening bracket: impossible
    exfalso
    have hmem : '[' ∈ (pre ++ '[' :: w₂).take n := by
      rw [List.take_append_eq_append_take]
      have : ('[' :: w₂).take (n - pre.length) = '[' :: w₂.take (n - pre.length - 1) := by
        cases hd : n - pre.length with
        | zero => omega
        | succ k => simp
      rw [this]
      simp
    have := laws.2.2.1 _ hs '[' hmem
    rw [hcls] at this
    cases this

/-- Structure of one substitution pass: either there is no match anywhere
and the pass is the identity, or the output is an unmatched prefix, the
token, and the recursively substituted remainder after the first
match. -/
theorem subOne_decomp (M : Bool → List Char → Option Nat) (tokM : List Char)
    (hM : ∀ pw s n, M pw s = some n → 1 ≤ n ∧ n ≤ s.length) :
    ∀ s pw, (subOne M tokM pw s = s ∧ CleanAt M pw s) ∨
      ∃ g L, g + L ≤ s.length ∧ 1 ≤ L ∧
        (∀ i < g, M (wCtx pw s i) (s.drop i) = none) ∧
        M (wCtx pw s g) (s.drop g) = some L ∧
        subOne M tokM pw s =
          s.take g ++ (tokM ++ subOne M tokM (wIdx s (g + L - 1)) (s.drop (g + L))) := by
  intro s
  induction s with
  | nil =>
    intro pw
    left
    exact ⟨rfl, fun i => by rw [List.drop_nil]; exact matcher_nil_none M hM _⟩
  | cons c r ih =>
    intro pw
    rcases h : M pw (c :: r) with _ | L
    · rcases ih (isWordChar c) with ⟨he, hc⟩ | ⟨g, L, hle, hL1, hfail, hmatch, heq⟩
      · left
        constructor
        · rw [subOne_cons]
          simp only [h]
          rw [he]
        · exact (cleanAt_cons M pw c r).mpr ⟨h, hc⟩
      · right
        refine ⟨g + 1, L, by simp only [List.length_cons]; omega, hL1, ?_, ?_, ?_⟩
        · intro i hi
          cases i with
          | zero => exact h
          | succ j =>
            rw [wCtx_cons, List.drop_succ_cons]
            exact hfail j (by omega)
        · rw [wCtx_cons, List.drop_succ_cons]
          exact hmatch
        · rw [subOne_cons]
          simp only [h]
          rw [heq]
          have e1 : (c :: r).take (g + 1) = c :: r.take g := rfl
          have e2 : (c :: r).drop (g + 1 + L) = r.drop (g + L) := by
            rw [show g + 1 + L = (g + L) + 1 by omega, List.drop_succ_cons]
          have e3 : wIdx (c :: r) (g + 1 + L - 1) = wIdx r (g + L - 1) := by
            rw [show g + 1 + L - 1 = (g + L - 1) + 1 by omega, wIdx_cons_succ]
          rw [e1, e2, e3]
          rfl
    · right
      obtain ⟨hL1, hLle⟩ := hM pw (c :: r) L h
      refine ⟨0, L, by simpa using hLle, hL1, ?_, ?_, ?_⟩
      · intro i hi
        omega
      · rw [wCtx_zero, List.drop_zero]
        exact h
      · rw [subOne_cons]
        simp only [h]
        rw [List.take_zero, Nat.zero_add, List.nil_append]
        have : (c :: r).drop L = r.drop (L - 1) := by
          cases L with
          | zero => omega
          | succ L' =>
            rw [List.drop_succ_cons]
            congr 1
        rw [this]

theorem wCtx_take (pw : Bool) (s : List Char) (g i : Nat) (h : i ≤ g) :
    wCtx pw (s.take g) i = wCtx pw s i := by
  cases i with
  | zero => rfl
  | succ j =>
    rw [wCtx_succ, wCtx_succ, wIdx_take]
    omega

theorem wLast_take_drop (s : List Char) (g i : Nat) (hi : i < g) (hg : g ≤ s.length) :
    wLast ((s.take g).drop i) = wIdx s (g - 1) := by
  rw [wLast, List.length_drop, List.length_take, wIdx_drop, wIdx_take]
  · congr 1
    omega
  · omega

theorem drop_take_append (s : List Char) (g i : Nat) (hi : i ≤ g) (hg : g ≤ s.length) :
    s.drop i = (s.take g).drop i ++ s.drop g := by
  conv_lhs => rw [← List.take_append_drop g s]
  rw [List.drop_append_of_le_length]
  rw [List.length_take]
  omega

/-- First character of a substitution pass output: when the input starts
with a non-word character, so does the output (the token starts with the
non-word `[`). -/
theorem subOne_wFirst_false (M : Bool → List Char → Option Nat) (tokM tokInit : List Char)
    (hM : ∀ pw s n, M pw s = some n → 1 ≤ n ∧ n ≤ s.length)
    (htok : tokM = '[' :: tokInit ++ [']'])
    (pw : Bool) (s : List Char) (h : wFirst s = false) :
    wFirst (subOne M tokM pw s) = false := by
  rcases subOne_decomp M tokM hM s pw with ⟨he, _⟩ | ⟨g, L, hgl, hL1, _, _, heq⟩
  · rw [he]
    exact h
  · rw [heq]
    by_cases hg : g = 0
    · subst hg
      rw [List.take_zero, List.nil_append, htok]
      rfl
    · have hlen : (s.take g).length = g := by
        rw [List.length_take]
        omega
      have hne : s.take g ≠ [] := by
        intro hemp
        rw [hemp] at hlen
        simp at hlen
        omega
      rw [wFirst_append _ _ hne, wFirst_take]
      · exact h
      · omega

/-- The central theorem: one substitution pass of pattern `M` leaves no
match of pattern `Q` anywhere in its output, provided either `Q` is `M`
itself (elimination) or the input already had no `Q` match
(preservation). -/
theorem subOne_cleanAt
    {M Q : Bool → List Char → Option Nat}
    {SM SQ : List Char → Prop} {clsM keyM clsQ keyQ : Char → Bool}
    (lawsM : PatLaws M SM clsM keyM) (lawsQ : PatLaws Q SQ clsQ keyQ)
    (tokM tokInit : List Char)
    (htok : tokM = '[' :: tokInit ++ [']'])
    (hkey : ∀ c ∈ tokM, keyQ c = false)
    (hclsL : clsQ '[' = false) (hclsR : clsQ ']' = false) :
    ∀ s pw, ((∀ pw' s', Q pw' s' = M pw' s') ∨ CleanAt Q pw s) →
      CleanAt Q pw (subOne M tokM pw s) := by
  have hM : ∀ pw s n, M pw s = some n → 1 ≤ n ∧ n ≤ s.length :=
    fun pw s n h => ⟨(lawsM.1 pw s n h).1, (lawsM.1 pw s n h).2.1⟩
  suffices H : ∀ b s pw, s.length ≤ b →
      ((∀ pw' s', Q pw' s' = M pw' s') ∨ CleanAt Q pw s) →
      CleanAt Q pw (subOne M tokM pw s) by
    intro s pw h
    exact H s.length s pw le_rfl h
  intro b
  induction b with
  | zero =>
    intro s pw hb hyp
    have : s = [] := List.length_eq_zero.mp (Nat.le_zero.mp hb)
    subst this
    intro i
    rw [subOne_nil, List.drop_nil]
    rcases hq : Q (wCtx pw [] i) [] with _ | n
    · rfl
    · have := (lawsQ.1 _ _ _ hq).1
      have h2 := (lawsQ.1 _ _ _ hq).2.1
      simp at h2
      omega
  | succ b ihb =>
    intro s pw hb hyp
    rcases subOne_decomp M tokM hM s pw with ⟨he, hMclean⟩ | ⟨g, L, hgl, hL1, hfail, hmatch, heq⟩
    · rw [he]
      rcases hyp with hQM | hclean
      · intro i
        rw [hQM]
        exact hMclean i
      · exact hclean
    · rw [heq]
      -- notation
      have hgle : g ≤ s.length := by omega
      have hglt : g < s.length := by omega
      have hpre_len : (s.take g).length = g := by
        rw [List.length_take]
        omega
      have hdropg : s.drop g = s[g] :: s.drop (g + 1) := List.drop_eq_getElem_cons hglt
      -- soundness data of the M match at position g
      obtain ⟨_, hL_le, hshape, hbM1, hbM2⟩ := lawsM.1 _ _ _ hmatch
      -- start boundary of the M match, stated on s[g]
      have hbM1' : bdry (wCtx pw s g) (isWordChar s[g]) = true := by
        have : wFirst ((s.drop g).take L) = isWordChar s[g] := by
          rw [wFirst_take _ _ hL1, hdropg, wFirst_cons]
        rwa [this] at hbM1
      -- the suffix after the match starts with a character of
      -- word-status opposite to the match's last character
      have hbM2' : bdry (wIdx s (g + L - 1)) (wFirst (s.drop (g + L))) = true := by
        have e1 : wLast ((s.drop g).take L) = wIdx s (g + L - 1) := by
          rw [wLast_take _ _ hL1, wIdx_drop]
          · congr 1
            omega
          · rw [List.length_drop]
            omega
        have e2 : (s.drop g).drop L = s.drop (g + L) := by
          rw [List.drop_drop]
        rw [e1, e2] at hbM2
        exact hbM2
      -- the recursive output
      set pw₂ := wIdx s (g + L - 1) with hpw₂
      set s₂ := s.drop (g + L) with hs₂
      set out₂ := subOne M tokM pw₂ s₂ with hout₂
      have hs₂b : s₂.length ≤ b := by
        rw [hs₂, List.length_drop]
        omega
      have hyp₂ : ((∀ pw' s', Q pw' s' = M pw' s') ∨ CleanAt Q pw₂ s₂) := by
        rcases hyp with hQM | hclean
        · exact Or.inl hQM
        · right
          have := hclean.dropSuffix (g + L)
          have hctx : wCtx pw s (g + L) = pw₂ := by
            rw [show g + L = (g + L - 1) + 1 by omega, wCtx_succ]
          rwa [hctx] at this
      have ih₂ : CleanAt Q pw₂ out₂ := ihb s₂ pw₂ hs₂b hyp₂
      -- token length
      have htlen : 1 ≤ tokM.length := by
        rw [htok]
        simp
      intro i
      rcases Nat.lt_or_ge i g with hig | hig
      · -- region 1: inside the unmatched prefix
        have hctx_out : wCtx pw (s.take g ++ (tokM ++ out₂)) i = wCtx pw s i := by
          rw [wCtx_append_left _ _ _ _ (by omega), wCtx_take _ _ _ _ (by omega)]
        have hdrop_out : (s.take g ++ (tokM ++ out₂)).drop i =
            (s.take g).drop i ++ (tokM ++ out₂) := by
          rw [List.drop_append_of_le_length (by omega)]
        rw [hctx_out, hdrop_out]
        rcases hq : Q (wCtx pw s i) ((s.take g).drop i ++ (tokM ++ out₂)) with _ | n
        · rfl
        · exfalso
          -- transfer the match back into the original text
          have hb_seam : bdry (wLast ((s.take g).drop i)) (isWordChar s[g]) = true := by
            rw [wLast_take_drop _ _ _ hig hgle]
            have : wCtx pw s g = wIdx s (g - 1) := by
              cases g with
              | zero => omega
              | succ g' =>
                rw [wCtx_succ]
                simp
            rw [← this]
            exact hbM1'
          have hq' : Q (wCtx pw s i) ((s.take g).drop i ++ '[' :: (tokInit ++ ']' :: out₂)) =
              some n := by
            have : tokM ++ out₂ = '[' :: (tokInit ++ ']' :: out₂) := by
              rw [htok]
              simp
            rwa [this] at hq
          have htr := matcher_seam_transfer lawsQ ((s.take g).drop i) (tokInit ++ ']' :: out₂)
            s[g] (s.drop (g + 1)) (wCtx pw s i) n hclsL hq' hb_seam
          have hsplit : (s.take g).drop i ++ s[g] :: s.drop (g + 1) = s.drop i := by
            rw [← hdropg, ← drop_take_append s g i (by omega) hgle]
          rw [hsplit] at htr
          rcases hyp with hQM | hclean
          · rw [hQM] at htr
            rw [hfail i hig] at htr
            cases htr
          · rw [hclean i] at htr
            cases htr
      · rcases Nat.lt_or_ge i (g + tokM.length) with hit | hit
        · -- region 2: inside the token
          have htlen2 : tokM.length = tokInit.length + 2 := by
            rw [htok]
            simp
          have hdrop_out : (s.take g ++ (tokM ++ out₂)).drop i =
              (('[' :: tokInit).drop (i - g)) ++ ']' :: out₂ := by
            rw [List.drop_append_eq_append_drop]
            rw [show (s.take g).drop i = [] from List.drop_eq_nil_of_le (by omega)]
            rw [List.nil_append, hpre_len]
            rw [List.drop_append_eq_append_drop]
            rw [show i - g - tokM.length = 0 by omega, List.drop_zero]
            rw [htok]
            rw [show ('[' :: tokInit ++ [']']) = ('[' :: tokInit) ++ [']'] from by simp]
            rw [List.drop_append_of_le_length (by simp; omega)]
            simp
          rw [hdrop_out]
          apply matcher_none_in_token lawsQ
          · intro c hc
            apply hkey
            rw [htok]
            have : c ∈ '[' :: tokInit := List.mem_of_mem_drop hc
            simp at this ⊢
            tauto
          · exact hclsR
        · -- region 3: inside the recursive output
          have hdrop_out : (s.take g ++ (tokM ++ out₂)).drop i =
              out₂.drop (i - g - tokM.length) := by
            rw [List.drop_append_eq_append_drop]
            rw [show (s.take g).drop i = [] by
              apply List.drop_eq_nil_of_le
              omega]
            rw [List.nil_append, hpre_len, List.drop_append_eq_append_drop]
            rw [show tokM.drop (i - g) = [] from List.drop_eq_nil_of_le (by omega)]
            rw [List.nil_append]
          rw [hdrop_out]
          rcases Nat.lt_or_ge (g + tokM.length) i with hgt | hge2
          · -- strictly inside: the context is a character of out₂
            have hctx : wCtx pw (s.take g ++ (tokM ++ out₂)) i =
                wCtx pw₂ out₂ (i - g - tokM.length) := by
              obtain ⟨j, hj⟩ : ∃ j, i = j + 1 := ⟨i - 1, by omega⟩
              subst hj
              rw [wCtx_succ]
              rw [wIdx_append_right _ _ _ (by rw [hpre_len]; omega), hpre_len]
              rw [wIdx_append_right _ _ _ (by omega)]
              rw [show j + 1 - g - tokM.length = (j - g - tokM.length) + 1 by omega, wCtx_succ]
            rw [hctx]
            exact ih₂ _
          · -- at the head of out₂: the context is the token's closing bracket
            have hieq : i = g + tokM.length := by omega
            subst hieq
            rw [show g + tokM.length - g - tokM.length = 0 by omega, List.drop_zero]
            have htlen2 : tokM.length = tokInit.length + 2 := by
              rw [htok]
              simp
            have hlastTok : wIdx tokM (tokM.length - 1) = false := by
              have hw : wLast tokM = false := by
                rw [htok, show ('[' :: tokInit ++ [']']) = ('[' :: tokInit) ++ [']'] from by
                  simp]
                rw [wLast_append _ _ (by simp)]
                simp [wLast, wIdx, isWordChar]
              rw [← hw]
              rfl
            have hctx : wCtx pw (s.take g ++ (tokM ++ out₂)) (g + tokM.length) = false := by
              rw [show g + tokM.length = (g + tokM.length - 1) + 1 by omega, wCtx_succ]
              rw [wIdx_append_right _ _ _ (by rw [hpre_len]; omega), hpre_len]
              rw [wIdx_append_left _ _ _ (by omega)]
              rw [show g + tokM.length - 1 - g = tokM.length - 1 by omega]
              exact hlastTok
            rw [hctx]
            by_cases hpwf : pw₂ = false
            · rw [← hpwf]
              exact ih₂ 0
            · have hpw₂t : pw₂ = true := by
                revert hpwf
                cases pw₂ <;> simp
              have hbM2'' := hbM2'
              rw [hpw₂t] at hbM2''
              have hfw : wFirst s₂ = false := bdry_true_right _ hbM2''
              have hfo : wFirst out₂ = false :=
                subOne_wFirst_false M tokM tokInit hM htok pw₂ s₂ hfw
              apply matcher_none_of_bad_bdry lawsQ
              rw [bdry_false_left, hfo]

/-! ## Retry-loop lemmas -/

theorem retryAux_attempts_ge (collab : Nat → AttemptOutcome α) :
    ∀ r k, k ≤ (retryAux collab k r).attempts := by
  intro r
  induction r with
  | zero =>
    intro k
    unfold retryAux
    rcases h : collab k with _ | ⟨m, rb⟩ <;> simp [h]
  | succ r' ih =>
    intro k
    unfold retryAux
    rcases h : collab k with _ | ⟨m, rb⟩
    · simp [h]
    · by_cases hrb : rb = true
      · simp only [h, hrb, if_true]
        exact le_trans (Nat.le_succ k) (ih (k + 1))
      · simp [h, hrb]

theorem retryAux_attempts_le (collab : Nat → AttemptOutcome α) :
    ∀ r k, (retryAux collab k r).attempts ≤ k + r := by
  intro r
  induction r with
  | zero =>
    intro k
    unfold retryAux
    rcases h : collab k with _ | ⟨m, rb⟩ <;> simp [h]
  | succ r' ih =>
    intro k
    unfold retryAux
    rcases h : collab k with _ | ⟨m, rb⟩
    · simp [h]
    · by_cases hrb : rb = true
      · have := ih (k + 1)
        simp only [h, hrb, if_true]
        omega
      · simp [h, hrb]

theorem retryAux_result (collab : Nat → AttemptOutcome α) :
    ∀ r k, (retryAux collab k r).result = collab (retryAux collab k r).attempts := by
  intro r
  induction r with
  | zero =>
    intro k
    unfold retryAux
    rcases h : collab k with _ | ⟨m, rb⟩ <;> simp [h]
  | succ r' ih =>
    intro k
    unfold retryAux
    rcases h : collab k with _ | ⟨m, rb⟩
    · simp [h]
    · by_cases hrb : rb = true
      · simpa [h, hrb] using ih (k + 1)
      · simp [h, hrb]

theorem retryAux_waits (collab : Nat → AttemptOutcome α) :
    ∀ r k, (retryAux collab k r).waits =
      (List.range ((retryAux collab k r).attempts - k)).map (fun i => waitExp (k + i)) := by
  intro r
  induction r with
  | zero =>
    intro k
    unfold retryAux
    rcases h : collab k with _ | ⟨m, rb⟩ <;> simp [h]
  | succ r' ih =>
    intro k
    unfold retryAux
    rcases h : collab k with _ | ⟨m, rb⟩
    · simp [h]
    · by_cases hrb : rb = true
      · simp only [h, hrb, if_true]
        have hge := retryAux_attempts_ge collab r' (k + 1)
        have hsub : (retryAux collab (k + 1) r').attempts - k =
            ((retryAux collab (k + 1) r').attempts - (k + 1)) + 1 := by omega
        rw [hsub, List.range_succ_eq_map]
        simp only [List.map_cons, List.map_map]
        refine List.cons_eq_cons.mpr ⟨by simp, ?_⟩
        rw [ih (k + 1)]
        apply List.map_congr_left
        intro i _
        simp only [Function.comp_apply]
        congr 1
        omega
      · simp [h, hrb]

theorem retryAux_retryable_exhausts (collab : Nat → AttemptOutcome α) :
    ∀ r k m, (retryAux collab k r).result = .raise m true →
      (retryAux collab k r).attempts = k + r := by
  intro r
  induction r with
  | zero =>
    intro k m h
    unfold retryAux at h ⊢
    rcases hc : collab k with _ | ⟨m', rb⟩ <;> simp [hc] at h ⊢
  | succ r' ih =>
    intro k m h
    unfold retryAux at h ⊢
    rcases hc : collab k with _ | ⟨m', rb⟩
    · simp [hc] at h
    · by_cases hrb : rb = true
      · simp only [hc, hrb, if_true] at h ⊢
        have := ih (k + 1) m h
        omega
      · simp [hc, hrb] at h ⊢

/-!  ## Claim theorems (orchestrator) -/

/-- **C1.** For every `TaskRequest`, `process_task` returns a
`TaskResponse` whose status is determined by the outcome: no selectable
agent gives status `failed` with error "No suitable agent available", a
zero-value agent id and `execution_time ≥ 0`; a timeout gives status
`timeout` with a descriptive error; any other failure gives status
`failed` with the failure's message; success gives status `success`
carrying the filtered result payload.  `process_task` is a total function
into `TaskResponse`, so no failure propagates as a thrown exception. -/
theorem C1_process_task_outcomes (agents : List Agent) (req : TaskRequest)
    (outcome : ExecOutcome) (t0 t1 : ℚ) (h : t0 ≤ t1) :
    0 ≤ (process_task agents req outcome t0 t1).execution_time ∧
    (select_agent agents req = none →
      process_task agents req outcome t0 t1 =
        { task_id := req.task_id, agent_id := 0, agent_name := "none",
          status := .failed, result := none,
          error := some "No suitable agent available",
          execution_time := t1 - t0 }) ∧
    (∀ a, select_agent agents req = some a →
      (outcome = .timedOut →
        (process_task agents req outcome t0 t1).status = .timeout ∧
        (process_task agents req outcome t0 t1).error =
          some ("Task exceeded timeout of " ++ toString a.timeout ++ "s")) ∧
      (∀ m, outcome = .failure m →
        (process_task agents req outcome t0 t1).status = .failed ∧
        (process_task agents req outcome t0 t1).error = some m) ∧
      (∀ p, outcome = .success p →
        (process_task agents req outcome t0 t1).status = .success ∧
        (process_task agents req outcome t0 t1).result = some p)) := by
  refine ⟨?_, ?_, ?_⟩
  · rcases hsel : select_agent agents req with _ | a <;>
      rcases outcome <;> simp [process_task, hsel] <;> linarith
  · intro hsel
    rcases outcome <;> simp [process_task, hsel]
  · intro a hsel
    refine ⟨?_, ?_, ?_⟩
    · rintro rfl; simp [process_task, hsel]
    · rintro m rfl; simp [process_task, hsel]
    · rintro p rfl; simp [process_task, hsel]

/-- Witness for C1 at a concrete input. -/
theorem C1_process_task_outcomes_witness :
    0 ≤ (process_task [] ⟨7, "u", "q".data, none⟩ .timedOut 0 1).execution_time ∧
    (select_agent [] ⟨7, "u", "q".data, none⟩ = none →
      process_task [] ⟨7, "u", "q".data, none⟩ .timedOut 0 1 =
        { task_id := (7 : Nat), agent_id := 0, agent_name := "none",
          status := .failed, result := none,
          error := some "No suitable agent available",
          execution_time := 1 - 0 }) ∧
    (∀ a, select_agent [] ⟨7, "u", "q".data, none⟩ = some a →
      (ExecOutcome.timedOut = .timedOut →
        (process_task [] ⟨7, "u", "q".data, none⟩ .timedOut 0 1).status = .timeout ∧
        (process_task [] ⟨7, "u", "q".data, none⟩ .timedOut 0 1).error =
          some ("Task exceeded timeout of " ++ toString a.timeout ++ "s")) ∧
      (∀ m, ExecOutcome.timedOut = .failure m →
        (process_task [] ⟨7, "u", "q".data, none⟩ .timedOut 0 1).status = .failed ∧
        (process_task [] ⟨7, "u", "q".data, none⟩ .timedOut 0 1).error = some m) ∧
      (∀ p, ExecOutcome.timedOut = .success p →
        (process_task [] ⟨7, "u", "q".data, none⟩ .timedOut 0 1).status = .success ∧
        (process_task [] ⟨7, "u", "q".data, none⟩ .timedOut 0 1).result = some p)) :=
  C1_process_task_outcomes [] ⟨7, "u", "q".data, none⟩ .timedOut 0 1 (by norm_num)

/-- **C2.** The guarded executor makes at most 3 attempts per task; the
waits between attempts are `waitExp 1, waitExp 2, …` where `waitExp`
starts at 2, doubles and is capped at 10; the final outcome is always the
last attempt's outcome (on exhaustion the last failure propagates,
`reraise=True`); a retryable failure is only final when all 3 attempts
are exhausted; a non-retryable failure propagates immediately. -/
theorem C2_retry_policy {α : Type} (collab : Nat → AttemptOutcome α) :
    (execRetry collab).attempts ≤ 3 ∧
    1 ≤ (execRetry collab).attempts ∧
    (execRetry collab).waits =
      (List.range ((execRetry collab).attempts - 1)).map (fun i => waitExp (1 + i)) ∧
    waitExp 1 = 2 ∧
    (∀ n, 1 ≤ n → waitExp (n + 1) = min (2 * waitExp n) 10) ∧
    (execRetry collab).result = collab (execRetry collab).attempts ∧
    (∀ m, (execRetry collab).result = .raise m true →
      (execRetry collab).attempts = 3) ∧
    (∀ m, collab 1 = .raise m false →
      execRetry collab = ⟨.raise m false, 1, []⟩) := by
  refine ⟨retryAux_attempts_le collab 2 1, retryAux_attempts_ge collab 2 1,
    retryAux_waits collab 2 1, rfl, ?_, retryAux_result collab 2 1, ?_, ?_⟩
  · intro n hn
    unfold waitExp
    have h2 : 2 ≤ 2 ^ n := by
      calc 2 = 2 ^ 1 := rfl
      _ ≤ 2 ^ n := Nat.pow_le_pow_right (by norm_num) hn
    have h2' : 2 ≤ 2 ^ (n + 1) := le_trans h2 (Nat.pow_le_pow_right (by norm_num) (Nat.le_succ n))
    rw [Nat.max_eq_left h2, Nat.max_eq_left h2', pow_succ]
    omega
  · intro m h
    exact retryAux_retryable_exhausts collab 2 1 m h
  · intro m h
    unfold execRetry retryAux
    simp [h]

/-- **C3.** `process_batch` returns exactly `n` responses, in input
order: the `i`-th response is `process_task` of the `i`-th request.  Each
entry's failure or timeout is captured in its own response by
`process_task` (a total function), so no entry's failure cancels the
others. -/
theorem C3_process_batch_shape (agents : List Agent)
    (inputs : List (TaskRequest × ExecOutcome × ℚ × ℚ)) :
    (process_batch agents inputs).length = inputs.length ∧
    ∀ i : Nat, (process_batch agents inputs)[i]? =
      (inputs[i]?).map (fun x => process_task agents x.1 x.2.1 x.2.2.1 x.2.2.2) :=
  ⟨List.length_map _ _, fun _ => List.getElem?_map _ _ _⟩

/-- **C7.** Response-side PII handling is detection-only: the payload is
returned unchanged on every path, whether or not PII is detected in it
and whatever the configuration. -/
theorem C7_filter_response_unchanged (cfg : GuardrailConfig) (response : Payload) :
    filter_response cfg response = response := by
  unfold filter_response
  split <;> rfl

/-- **C8.** Agent selection: `get_agent_by_type` is the first enabled
agent of the given type in registry order; a satisfiable preference
always wins; otherwise selection falls back to the first enabled agent in
registry order; selection is `none` exactly when no enabled agent exists;
and with a single enabled registered agent, selection with that agent's
type preferred and with no preference both return it. -/
theorem C8_select_agent_policy (agents : List Agent) (req : TaskRequest) :
    (∀ t, get_agent_by_type agents t =
      agents.find? (fun a => a.agent_type = t && a.enabled)) ∧
    (∀ t a, req.preferred_agent = some t → get_agent_by_type agents t = some a →
      select_agent agents req = some a) ∧
    ((∀ t, req.preferred_agent = some t → get_agent_by_type agents t = none) →
      select_agent agents req = agents.find? (fun a => a.enabled)) ∧
    (select_agent agents req = none ↔ ∀ a ∈ agents, a.enabled = false) ∧
    (∀ a : Agent, a.enabled = true →
      select_agent [a] { req with preferred_agent := some a.agent_type } = some a ∧
      select_agent [a] { req with preferred_agent := none } = some a) := by
  refine ⟨fun _ => rfl, ?_, ?_, ?_, ?_⟩
  · intro t a hp hg
    simp [select_agent, hp, hg]
  · intro h
    rcases hp : req.preferred_agent with _ | t
    · simp [select_agent, hp]
    · simp [select_agent, hp, h t hp]
  · have hnone : agents.find? (fun a => a.enabled) = none ↔ ∀ a ∈ agents, a.enabled = false := by
      rw [List.find?_eq_none]
      constructor
      · intro h a ha
        have := h a ha
        simpa using this
      · intro h a ha
        simp [h a ha]
    rcases hp : req.preferred_agent with _ | t
    · rw [show select_agent agents req = agents.find? (fun a => a.enabled) by
        simp only [select_agent, hp]]
      exact hnone
    · constructor
      · intro h
        rcases hg : get_agent_by_type agents t with _ | a
        · simp only [select_agent, hp, hg] at h
          exact hnone.mp h
        · simp only [select_agent, hp, hg] at h
          cases h
      · intro h
        have h1 : agents.find? (fun a => a.enabled) = none := hnone.mpr h
        have h2 : get_agent_by_type agents t = none := by
          rw [get_agent_by_type, List.find?_eq_none]
          intro a ha
          simp [h a ha]
        simp only [select_agent, hp, h2]
        exact h1
  · intro a ha
    constructor
    · simp [select_agent, get_agent_by_type, ha]
    · simp [select_agent, ha]

/-- Witness for C8's embedded hypotheses at a concrete registry. -/
theorem C8_select_agent_policy_witness :
    select_agent [⟨1, "b", .bedrock, "", "http", 30, 3, true⟩]
        { task_id := 0, user_id := "u", query := "q".data,
          preferred_agent := some .bedrock } =
      some ⟨1, "b", .bedrock, "", "http", 30, 3, true⟩ ∧
    select_agent [⟨1, "b", .bedrock, "", "http", 30, 3, true⟩]
        { task_id := 0, user_id := "u", query := "q".data,
          preferred_agent := none } =
      some ⟨1, "b", .bedrock, "", "http", 30, 3, true⟩ :=
  (C8_select_agent_policy [⟨1, "b", .bedrock, "", "http", 30, 3, true⟩]
      { task_id := 0, user_id := "u", query := "q".data,
        preferred_agent := none }).2.2.2.2
    ⟨1, "b", .bedrock, "", "http", 30, 3, true⟩ rfl

/-! ## Claim theorems (compliance engine, non-quantified parts) -/

/-- **C9.** When `pii_detection` is off, `detect_pii` returns the empty
mapping and `mask_pii` is the identity, for every text. -/
theorem C9_pii_detection_gate (cfg : GuardrailConfig) (text : List Char)
    (h : cfg.pii_detection = false) :
    detect_pii cfg text = [] ∧ mask_pii cfg text = text := by
  simp [detect_pii, mask_pii, h]

/-- Witness for C9 at a concrete configuration and a PII-laden text. -/
theorem C9_pii_detection_gate_witness :
    detect_pii ⟨true, [], false, true, true, []⟩ "a@b.cc 111-22-3333".data = [] ∧
    mask_pii ⟨true, [], false, true, true, []⟩ "a@b.cc 111-22-3333".data =
      "a@b.cc 111-22-3333".data :=
  C9_pii_detection_gate ⟨true, [], false, true, true, []⟩ "a@b.cc 111-22-3333".data rfl

/-- **C10.** The `types` list of `GuardrailConfig` has no effect on any
compliance-engine operation: every operation returns identical results
for configurations differing only in `types`. -/
theorem C10_types_no_effect (cfg : GuardrailConfig) (ts : List GuardrailType)
    (text : List Char) (req : TaskRequest) (resp : Payload) (u r : String) :
    detect_pii { cfg with types := ts } text = detect_pii cfg text ∧
    mask_pii { cfg with types := ts } text = mask_pii cfg text ∧
    validate_request { cfg with types := ts } req = validate_request cfg req ∧
    filter_response { cfg with types := ts } resp = filter_response cfg resp ∧
    validate_access { cfg with types := ts } u r = validate_access cfg u r :=
  ⟨rfl, rfl, rfl, rfl, rfl⟩

/-- **C6.** `validate_request`: with guardrails disabled the request is
returned unchanged; with guardrails and `pii_detection` enabled and any
PII detected in the query, the query is replaced by its masked form (the
in-place mutation of the source is modelled by the returned record); and
on the scenario query the validated query is exactly the masked scenario
text: it contains `[EMAIL_REDACTED]` and `[PHONE_REDACTED]` once each and
no email-shaped or phone-shaped substring remains. -/
theorem C6_validate_request_masks (cfg : GuardrailConfig) (req : TaskRequest) :
    (cfg.enabled = false → validate_request cfg req = req) ∧
    (cfg.enabled = true → cfg.pii_detection = true → detect_pii cfg req.query ≠ [] →
      validate_request cfg req = { req with query := mask_pii cfg req.query }) ∧
    (cfg.enabled = true → cfg.pii_detection = true → req.query = scenarioQuery →
      (validate_request cfg req).query = scenarioMasked ∧
      countOcc emailTok (validate_request cfg req).query = 1 ∧
      countOcc phoneTok (validate_request cfg req).query = 1 ∧
      countMatch emailMatch false (validate_request cfg req).query = 0 ∧
      countMatch phoneMatch false (validate_request cfg req).query = 0) := by
  refine ⟨?_, ?_, ?_⟩
  · intro h
    simp [validate_request, h]
  · intro h1 h2 h3
    simp [validate_request, h1, h2, h3]
  · intro h1 h2 hq
    have hm : mask_pii cfg req.query = scenarioMasked := by
      rw [hq]
      unfold mask_pii
      rw [if_neg (by simp [h2])]
      decide
    have hd : detect_pii cfg req.query ≠ [] := by
      rw [hq]
      unfold detect_pii
      rw [if_neg (by simp [h2])]
      decide
    have hv : (validate_request cfg req).query = scenarioMasked := by
      rw [validate_request, if_neg (by simp [h1]), if_pos ⟨hd, h2⟩]
      exact hm
    rw [hv]
    refine ⟨rfl, by decide, by decide, by decide, by decide⟩

/-- Witness for C6 at a concrete configuration and request. -/
theorem C6_validate_request_masks_witness :
    (validate_request ⟨true, [], true, true, true, []⟩
      ⟨3, "u", scenarioQuery, none⟩).query = scenarioMasked ∧
    countOcc emailTok (validate_request ⟨true, [], true, true, true, []⟩
      ⟨3, "u", scenarioQuery, none⟩).query = 1 ∧
    countOcc phoneTok (validate_request ⟨true, [], true, true, true, []⟩
      ⟨3, "u", scenarioQuery, none⟩).query = 1 ∧
    countMatch emailMatch false (validate_request ⟨true, [], true, true, true, []⟩
      ⟨3, "u", scenarioQuery, none⟩).query = 0 ∧
    countMatch phoneMatch false (validate_request ⟨true, [], true, true, true, []⟩
      ⟨3, "u", scenarioQuery, none⟩).query = 0 :=
  (C6_validate_request_masks ⟨true, [], true, true, true, []⟩
    ⟨3, "u", scenarioQuery, none⟩).2.2 rfl rfl rfl

/-- **C4, counterexample.**  The claim asserts that for a text with
exactly `N` email-shaped substrings, `mask` contains exactly `N`
occurrences of the literal token `[EMAIL_REDACTED]`.  The text
`"[EMAIL_REDACTED]"` itself has `N = 0` email matches, is left unchanged
by `mask`, and the masked text contains `1 ≠ 0` occurrence of the
token. -/
theorem C4_occurrence_counterexample :
    countMatch emailMatch false "[EMAIL_REDACTED]".data = 0 ∧
    mask_pii ⟨true, [], true, true, true, []⟩ "[EMAIL_REDACTED]".data =
      "[EMAIL_REDACTED]".data ∧
    countOcc emailTok
      (mask_pii ⟨true, [], true, true, true, []⟩ "[EMAIL_REDACTED]".data) ≠ 0 := by
  refine ⟨by decide, by decide, by decide⟩

/-! ## Occurrence counting: block decomposition -/

theorem isPrefixOf_getElem (p z : List Char) (h : p.isPrefixOf z = true) (idx : Nat)
    (hidx : idx < p.length) : z[idx]? = p[idx]? := by
  rw [List.isPrefixOf_iff_prefix] at h
  obtain ⟨t, ht⟩ := h
  rw [← ht, List.getElem?_append_left hidx]

theorem not_isPrefixOf_of_mismatchAt (p w : List Char) (h : mismatchAt p w = true)
    (v : List Char) : ¬ p.isPrefixOf (w ++ v) = true := by
  intro hp
  rw [mismatchAt, List.any_eq_true] at h
  obtain ⟨idx, hidxmem, hne⟩ := h
  rw [List.mem_range] at hidxmem
  have h1 : (w ++ v)[idx]? = p[idx]? := isPrefixOf_getElem p (w ++ v) hp idx (by omega)
  have h2 : (w ++ v)[idx]? = w[idx]? := List.getElem?_append_left (by omega)
  rw [h2] at h1
  simp at hne
  exact hne h1.symm

theorem noStraddle_of_chk (p tokM : List Char) (h : noStraddleChk p tokM = true) :
    NoStraddle p tokM := by
  intro v j hj hp
  rw [noStraddleChk, List.all_eq_true] at h
  exact not_isPrefixOf_of_mismatchAt p (tokM.drop j) (h j (List.mem_range.mpr hj)) v hp

theorem noStraddlePos_of_chk (p tokM : List Char) (h : noStraddlePosChk p tokM = true) :
    NoStraddlePos p tokM := by
  intro v j hj1 hj hp
  rw [noStraddlePosChk, List.all_eq_true] at h
  have := h j (List.mem_range.mpr hj)
  rcases (by simpa using this : j = 0 ∨ mismatchAt p (tokM.drop j) = true) with h0 | hm
  · omega
  · exact not_isPrefixOf_of_mismatchAt p (tokM.drop j) hm v hp

theorem countOcc_append (p a b : List Char) :
    countOcc p (a ++ b) = countOccCont p a b + countOcc p b := by
  induction a with
  | nil => simp [countOccCont]
  | cons c r ih =>
    simp only [List.cons_append, countOcc, countOccCont, List.append_eq, ih]
    omega

theorem countOccCont_eq_zero (p a b : List Char)
    (h : ∀ j < a.length, ¬ p.isPrefixOf (a.drop j ++ b) = true) :
    countOccCont p a b = 0 := by
  induction a with
  | nil => rfl
  | cons c r ih =>
    have h0 : ¬ p.isPrefixOf (c :: r ++ b) = true := by simpa using h 0 (by simp)
    rw [countOccCont, if_neg h0, ih (fun j hj => h (j + 1) (by simp; omega))]

theorem countOccCont_congr (p a b b' : List Char)
    (h : ∀ j < a.length, p.isPrefixOf (a.drop j ++ b) = p.isPrefixOf (a.drop j ++ b')) :
    countOccCont p a b = countOccCont p a b' := by
  induction a with
  | nil => rfl
  | cons c r ih =>
    rw [countOccCont, countOccCont,
      show p.isPrefixOf (c :: r ++ b) = p.isPrefixOf (c :: r ++ b') from h 0 (by simp),
      ih (fun j hj => h (j + 1) (by simp; omega))]

theorem countOcc_eq_zero_iff (p : List Char) (hp : p ≠ []) (s : List Char) :
    countOcc p s = 0 ↔ ∀ i, ¬ p.isPrefixOf (s.drop i) = true := by
  induction s with
  | nil =>
    constructor
    · intro _ i
      rw [List.drop_nil]
      cases p with
      | nil => exact absurd rfl hp
      | cons c r => simp [List.isPrefixOf]
    · intro _
      rfl
  | cons c r ih =>
    constructor
    · intro h i
      rw [countOcc] at h
      have h1 : countOcc p r = 0 := by omega
      cases i with
      | zero =>
        intro hpre
        rw [List.drop_zero] at hpre
        rw [if_pos hpre] at h
        omega
      | succ j => exact (ih.mp h1) j
    · intro h
      have h0 := h 0
      rw [List.drop_zero] at h0
      rw [countOcc, if_neg h0, ih.mpr (fun j => h (j + 1))]

theorem countOcc_drop_zero (p : List Char) (hp : p ≠ []) (s : List Char) (k : Nat)
    (h : countOcc p s = 0) : countOcc p (s.drop k) = 0 := by
  rw [countOcc_eq_zero_iff p hp] at h ⊢
  intro i
  rw [List.drop_drop]
  exact h (k + i)

theorem isPrefixOf_append_of_le (p X Y : List Char) (h : p.length ≤ X.length) :
    p.isPrefixOf (X ++ Y) = p.isPrefixOf X := by
  rw [Bool.eq_iff_iff, List.isPrefixOf_iff_prefix, List.isPrefixOf_iff_prefix]
  constructor
  · intro hp
    have := List.prefix_iff_eq_take.mp hp
    rw [List.take_append_of_le_length h] at this
    rw [this]
    exact List.take_prefix _ _
  · exact fun hp => hp.trans (List.prefix_append X Y)

theorem mem_of_getElem?_eq (l : List Char) (n : Nat) (a : Char) (h : l[n]? = some a) :
    a ∈ l := by
  rcases List.getElem?_eq_some.mp h with ⟨hlt, hg⟩
  rw [← hg]
  exact List.getElem_mem hlt

theorem countOccCont_seam (p gap bOut bIn : List Char) (cO cI : Char)
    (hO : ∃ u, bOut = cO :: u) (hI : ∃ u, bIn = cI :: u)
    (hpO : ∀ j, 0 < j → p[j]? ≠ some cO)
    (hpI : cI ∉ p) :
    countOccCont p gap bOut = countOccCont p gap bIn := by
  apply countOccCont_congr
  intro j hj
  have hX : 1 ≤ (gap.drop j).length := by
    rw [List.length_drop]
    omega
  by_cases hlen : p.length ≤ (gap.drop j).length
  · rw [isPrefixOf_append_of_le p _ _ hlen, isPrefixOf_append_of_le p _ _ hlen]
  · obtain ⟨u, hu⟩ := hO
    obtain ⟨u', hu'⟩ := hI
    have f1 : p.isPrefixOf (gap.drop j ++ bOut) = false := by
      rw [Bool.eq_false_iff]
      intro hpre
      have h0 := isPrefixOf_getElem p _ hpre (gap.drop j).length (by omega)
      rw [List.getElem?_append_right le_rfl, Nat.sub_self, hu,
        List.getElem?_cons_zero] at h0
      exact hpO (gap.drop j).length (by omega) h0.symm
    have f2 : p.isPrefixOf (gap.drop j ++ bIn) = false := by
      rw [Bool.eq_false_iff]
      intro hpre
      have h0 := isPrefixOf_getElem p _ hpre (gap.drop j).length (by omega)
      rw [List.getElem?_append_right le_rfl, Nat.sub_self, hu',
        List.getElem?_cons_zero] at h0
      exact hpI (mem_of_getElem?_eq p _ cI h0.symm)
    rw [f1, f2]

theorem countOccCont_disjoint (p w rest : List Char) (hpne : p ≠ [])
    (hdis : ∀ c ∈ w, c ∉ p) :
    countOccCont p w rest = 0 := by
  apply countOccCont_eq_zero
  intro j hj hpre
  have h0 := isPrefixOf_getElem p _ hpre 0 (by cases p <;> simp_all)
  have hw : (w.drop j ++ rest)[0]? = some w[j] := by
    rw [List.getElem?_append_left (by rw [List.length_drop]; omega), List.getElem?_drop]
    simp [List.getElem?_eq_getElem hj]
  rw [hw] at h0
  exact hdis w[j] (List.getElem_mem hj) (mem_of_getElem?_eq p 0 _ h0.symm)

theorem countOccCont_self (p : List Char) (hpne : p ≠ []) (hstr : NoStraddlePos p p)
    (B : List Char) : countOccCont p p B = 1 := by
  rcases hp : p with _ | ⟨c, r⟩
  · exact absurd hp hpne
  subst hp
  rw [countOccCont]
  rw [if_pos (by
    rw [List.isPrefixOf_iff_prefix]
    exact List.prefix_append _ _)]
  rw [countOccCont_eq_zero (c :: r) r B
    (fun j hj hpre => hstr B (j + 1) (by omega) (by simp; omega) hpre)]

/-! ## Match counting along the scan decomposition -/

theorem countMatch_eq_zero_of_cleanAt (M : Bool → List Char → Option Nat) :
    ∀ (s : List Char) (pw : Bool), CleanAt M pw s → countMatch M pw s = 0 := by
  intro s
  induction s with
  | nil =>
    intro pw _
    rfl
  | cons c r ih =>
    intro pw hclean
    obtain ⟨h0, hr⟩ := (cleanAt_cons M pw c r).mp hclean
    rw [countMatch_cons]
    simp only [h0]
    exact ih (isWordChar c) hr

theorem subOne_eq_of_cleanAt (M : Bool → List Char → Option Nat) (tok : List Char) :
    ∀ (s : List Char) (pw : Bool), CleanAt M pw s → subOne M tok pw s = s := by
  intro s
  induction s with
  | nil =>
    intro pw _
    rfl
  | cons c r ih =>
    intro pw hclean
    obtain ⟨h0, hr⟩ := (cleanAt_cons M pw c r).mp hclean
    rw [subOne_cons]
    simp only [h0]
    rw [ih (isWordChar c) hr]

theorem countMatch_decomp (M : Bool → List Char → Option Nat)
    (hM : ∀ pw s n, M pw s = some n → 1 ≤ n ∧ n ≤ s.length) :
    ∀ (g : Nat) (s : List Char) (pw : Bool) (L : Nat),
      (∀ i < g, M (wCtx pw s i) (s.drop i) = none) →
      M (wCtx pw s g) (s.drop g) = some L → 1 ≤ L →
      countMatch M pw s = countMatch M (wIdx s (g + L - 1)) (s.drop (g + L)) + 1 := by
  intro g
  induction g with
  | zero =>
    intro s pw L _ hmatch hL
    rw [wCtx_zero, List.drop_zero] at hmatch
    cases s with
    | nil =>
      rw [matcher_nil_none M hM] at hmatch
      cases hmatch
    | cons c r =>
      rw [countMatch_cons]
      simp only [hmatch]
      have e1 : (c :: r).drop (0 + L) = r.drop (L - 1) := by
        cases L with
        | zero => omega
        | succ L' =>
          rw [Nat.zero_add, List.drop_succ_cons]
          congr 1
      rw [e1, Nat.zero_add]
  | succ g' ih =>
    intro s pw L hfail hmatch hL
    cases s with
    | nil =>
      rw [List.drop_nil, matcher_nil_none M hM] at hmatch
      cases hmatch
    | cons c r =>
      have h0 := hfail 0 (by omega)
      rw [wCtx_zero, List.drop_zero] at h0
      rw [countMatch_cons]
      simp only [h0]
      rw [wCtx_cons, List.drop_succ_cons] at hmatch
      have := ih r (isWordChar c) L
        (fun i hi => by
          have := hfail (i + 1) (by omega)
          rwa [wCtx_cons, List.drop_succ_cons] at this)
        hmatch hL
      rw [this]
      rw [show g' + 1 + L - 1 = (g' + L - 1) + 1 by omega, wIdx_cons_succ,
        show g' + 1 + L = (g' + L) + 1 by omega, List.drop_succ_cons]

/-! ## Occurrence counts through one substitution pass -/

/-- Inserting the pattern's own token: when the token does not already
occur in the text, the substitution output contains exactly one token
occurrence per match. -/
theorem countOcc_subOne_self
    {M : Bool → List Char → Option Nat} {SM : List Char → Prop} {clsM keyM : Char → Bool}
    (lawsM : PatLaws M SM clsM keyM)
    (p tokInit : List Char)
    (htok : p = '[' :: tokInit ++ [']'])
    (hbr : ∀ j, 0 < j → p[j]? ≠ some '[')
    (hstr : NoStraddlePos p p) :
    ∀ s pw, countOcc p s = 0 → countOcc p (subOne M p pw s) = countMatch M pw s := by
  have hpne : p ≠ [] := by
    rw [htok]
    simp
  have hM : ∀ pw s n, M pw s = some n → 1 ≤ n ∧ n ≤ s.length := fun pw s n h =>
    ⟨(lawsM.1 pw s n h).1, (lawsM.1 pw s n h).2.1⟩
  suffices H : ∀ b s pw, s.length ≤ b → countOcc p s = 0 →
      countOcc p (subOne M p pw s) = countMatch M pw s by
    intro s pw
    exact H s.length s pw le_rfl
  intro b
  induction b with
  | zero =>
    intro s pw hb hz
    have : s = [] := List.length_eq_zero.mp (by omega)
    subst this
    rw [subOne_nil, countMatch_nil]
    exact hz
  | succ b ihb =>
    intro s pw hb hz
    rcases subOne_decomp M p hM s pw with ⟨he, hclean⟩ | ⟨g, L, hgl, hL1, hfail, hmatch, heq⟩
    · rw [he, countMatch_eq_zero_of_cleanAt M s pw hclean]
      exact hz
    · rw [heq]
      have hzpt : ∀ i, ¬ p.isPrefixOf (s.drop i) = true := (countOcc_eq_zero_iff p hpne s).mp hz
      rw [countOcc_append, countOcc_append]
      have hgap : countOccCont p (s.take g)
          (p ++ subOne M p (wIdx s (g + L - 1)) (s.drop (g + L))) = 0 := by
        apply countOccCont_eq_zero
        intro j hj
        rw [List.length_take] at hj
        have hjg : j < g := by omega
        have hXlen : ((s.take g).drop j).length = g - j := by
          rw [List.length_drop, List.length_take]
          omega
        by_cases hpl : p.length ≤ g - j
        · rw [isPrefixOf_append_of_le p _ _ (by omega)]
          intro hpre
          apply hzpt j
          rw [drop_take_append s g j (by omega) (by omega)]
          rw [List.isPrefixOf_iff_prefix] at hpre ⊢
          exact hpre.trans (List.prefix_append _ _)
        · intro hpre
          have h0 := isPrefixOf_getElem p _ hpre (g - j) (by omega)
          have h1 : ((s.take g).drop j ++
              (p ++ subOne M p (wIdx s (g + L - 1)) (s.drop (g + L))))[g - j]? = some '[' := by
            rw [List.getElem?_append_right (by omega),
              show g - j - ((s.take g).drop j).length = 0 by omega, htok]
            simp
          rw [h0] at h1
          exact hbr (g - j) (by omega) h1
      have htokc : countOccCont p p (subOne M p (wIdx s (g + L - 1)) (s.drop (g + L))) = 1 :=
        countOccCont_self p hpne hstr _
      have hz2 : countOcc p (s.drop (g + L)) = 0 := countOcc_drop_zero p hpne s (g + L) hz
      have hrec := ihb (s.drop (g + L)) (wIdx s (g + L - 1))
        (by rw [List.length_drop]; omega) hz2
      rw [hgap, htokc, hrec]
      rw [countMatch_decomp M hM g s pw L hfail hmatch hL1]
      omega

/-- Occurrence preservation: a substitution pass of a pattern whose
character class is disjoint from `p`, inserting a token that `p` cannot
straddle, leaves the number of `p` occurrences unchanged. -/
theorem countOcc_subOne_other
    {M : Bool → List Char → Option Nat} {SM : List Char → Prop} {clsM keyM : Char → Bool}
    (lawsM : PatLaws M SM clsM keyM)
    (tokM tokInit p : List Char)
    (htok : tokM = '[' :: tokInit ++ [']'])
    (hpne : p ≠ [])
    (hcls : ∀ c ∈ p, clsM c = false)
    (hbr : ∀ j, 0 < j → p[j]? ≠ some '[')
    (hstr : NoStraddle p tokM) :
    ∀ s pw, countOcc p (subOne M tokM pw s) = countOcc p s := by
  have hM : ∀ pw s n, M pw s = some n → 1 ≤ n ∧ n ≤ s.length := fun pw s n h =>
    ⟨(lawsM.1 pw s n h).1, (lawsM.1 pw s n h).2.1⟩
  suffices H : ∀ b s pw, s.length ≤ b →
      countOcc p (subOne M tokM pw s) = countOcc p s by
    intro s pw
    exact H s.length s pw le_rfl
  intro b
  induction b with
  | zero =>
    intro s pw hb
    have : s = [] := List.length_eq_zero.mp (by omega)
    subst this
    rw [subOne_nil]
  | succ b ihb =>
    intro s pw hb
    rcases subOne_decomp M tokM hM s pw with ⟨he, _⟩ | ⟨g, L, hgl, hL1, hfail, hmatch, heq⟩
    · rw [he]
    · rw [heq]
      have hglt : g < s.length := by omega
      have hdropg : s.drop g = s[g] :: s.drop (g + 1) := List.drop_eq_getElem_cons hglt
      obtain ⟨_, hLle, hshape, _, _⟩ := lawsM.1 _ _ _ hmatch
      have hmw : ∀ c ∈ (s.drop g).take L, clsM c = true := lawsM.2.2.1 _ hshape
      have hmemg : s[g] ∈ (s.drop g).take L := by
        cases L with
        | zero => omega
        | succ L' =>
          rw [hdropg, List.take_succ_cons]
          exact List.mem_cons_self _ _
      have hdd : (s.drop g).drop L = s.drop (g + L) := by
        rw [List.drop_drop]
      have hsplitg : (s.drop g).take L ++ s.drop (g + L) = s.drop g := by
        rw [← hdd]
        exact List.take_append_drop L (s.drop g)
      conv_rhs => rw [← List.take_append_drop g s, ← hsplitg]
      rw [countOcc_append, countOcc_append, countOcc_append, countOcc_append]
      have hseam : countOccCont p (s.take g)
          (tokM ++ subOne M tokM (wIdx s (g + L - 1)) (s.drop (g + L))) =
          countOccCont p (s.take g) ((s.drop g).take L ++ s.drop (g + L)) := by
        apply countOccCont_seam p _ _ _ '[' s[g]
        · exact ⟨tokInit ++ [']'] ++ subOne M tokM (wIdx s (g + L - 1)) (s.drop (g + L)),
            by rw [htok]; simp⟩
        · cases L with
          | zero => omega
          | succ L' =>
            rw [hdropg, List.take_succ_cons]
            exact ⟨(s.drop (g + 1)).take L' ++ s.drop (g + (L' + 1)), by rw [List.cons_append]⟩
        · exact hbr
        · intro hmem
          have := hcls s[g] hmem
          rw [hmw s[g] hmemg] at this
          cases this
      have htokc : countOccCont p tokM
          (subOne M tokM (wIdx s (g + L - 1)) (s.drop (g + L))) = 0 :=
        countOccCont_eq_zero p tokM _ (fun j hj => hstr _ j hj)
      have hmatchc : countOccCont p ((s.drop g).take L) (s.drop (g + L)) = 0 := by
        apply countOccCont_disjoint p _ _ hpne
        intro c hc hcp
        have := hcls c hcp
        rw [hmw c hc] at this
        cases this
      have hrec := ihb (s.drop (g + L)) (wIdx s (g + L - 1)) (by rw [List.length_drop]; omega)
      rw [hseam, htokc, hmatchc, hrec]

/-! ## Concrete instances for the four patterns and their tokens -/

theorem bracketOnlyHead_of_lt (p : List Char)
    (h : ∀ j < p.length, 0 < j → p[j]? ≠ some '[') :
    ∀ j, 0 < j → p[j]? ≠ some '[' := by
  intro j hj
  by_cases hl : j < p.length
  · exact h j hl hj
  · rw [List.getElem?_eq_none (by omega)]
    simp

theorem emailTok_bracket_only_head : ∀ j, 0 < j → emailTok[j]? ≠ some '[' :=
  bracketOnlyHead_of_lt emailTok (by decide)

theorem emailTok_noStraddle_ssnTok : NoStraddle emailTok ssnTok :=
  noStraddle_of_chk _ _ (by decide)

theorem emailTok_noStraddle_phoneTok : NoStraddle emailTok phoneTok :=
  noStraddle_of_chk _ _ (by decide)

theorem emailTok_noStraddle_cardTok : NoStraddle emailTok cardTok :=
  noStraddle_of_chk _ _ (by decide)

theorem emailTok_noStraddlePos_self : NoStraddlePos emailTok emailTok :=
  noStraddlePos_of_chk _ _ (by decide)

/-- After the full four-pass substitution pipeline, no email match remains:
the email pass eliminates them, and the other tokens neither contain `@`
nor bracket characters of the email class. -/
theorem mask_clean_email (text : List Char) :
    CleanAt emailMatch false
      (subOne cardMatch cardTok false
        (subOne phoneMatch phoneTok false
          (subOne ssnMatch ssnTok false
            (subOne emailMatch emailTok false text)))) := by
  have h1 : CleanAt emailMatch false (subOne emailMatch emailTok false text) :=
    subOne_cleanAt emailMatch_laws emailMatch_laws emailTok "EMAIL_REDACTED".data
      (by decide) (by decide) (by decide) (by decide) text false (Or.inl fun _ _ => rfl)
  have h2 := subOne_cleanAt ssnMatch_laws emailMatch_laws ssnTok "SSN_REDACTED".data
    (by decide) (by decide) (by decide) (by decide) _ false (Or.inr h1)
  have h3 := subOne_cleanAt phoneMatch_laws emailMatch_laws phoneTok "PHONE_REDACTED".data
    (by decide) (by decide) (by decide) (by decide) _ false (Or.inr h2)
  exact subOne_cleanAt cardMatch_laws emailMatch_laws cardTok "CREDIT_CARD_REDACTED".data
    (by decide) (by decide) (by decide) (by decide) _ false (Or.inr h3)

/-- After the full pipeline, no ssn match remains. -/
theorem mask_clean_ssn (text : List Char) :
    CleanAt ssnMatch false
      (subOne cardMatch cardTok false
        (subOne phoneMatch phoneTok false
          (subOne ssnMatch ssnTok false
            (subOne emailMatch emailTok false text)))) := by
  have h2 : CleanAt ssnMatch false
      (subOne ssnMatch ssnTok false (subOne emailMatch emailTok false text)) :=
    subOne_cleanAt ssnMatch_laws ssnMatch_laws ssnTok "SSN_REDACTED".data
      (by decide) (by decide) (by decide) (by decide) _ false (Or.inl fun _ _ => rfl)
  have h3 := subOne_cleanAt phoneMatch_laws ssnMatch_laws phoneTok "PHONE_REDACTED".data
    (by decide) (by decide) (by decide) (by decide) _ false (Or.inr h2)
  exact subOne_cleanAt cardMatch_laws ssnMatch_laws cardTok "CREDIT_CARD_REDACTED".data
    (by decide) (by decide) (by decide) (by decide) _ false (Or.inr h3)

/-- After the full pipeline, no phone match remains. -/
theorem mask_clean_phone (text : List Char) :
    CleanAt phoneMatch false
      (subOne cardMatch cardTok false
        (subOne phoneMatch phoneTok false
          (subOne ssnMatch ssnTok false
            (subOne emailMatch emailTok false text)))) := by
  have h3 : CleanAt phoneMatch false
      (subOne phoneMatch phoneTok false
        (subOne ssnMatch ssnTok false (subOne emailMatch emailTok false text))) :=
    subOne_cleanAt phoneMatch_laws phoneMatch_laws phoneTok "PHONE_REDACTED".data
      (by decide) (by decide) (by decide) (by decide) _ false (Or.inl fun _ _ => rfl)
  exact subOne_cleanAt cardMatch_laws phoneMatch_laws cardTok "CREDIT_CARD_REDACTED".data
    (by decide) (by decide) (by decide) (by decide) _ false (Or.inr h3)

/-- After the full pipeline, no card match remains. -/
theorem mask_clean_card (text : List Char) :
    CleanAt cardMatch false
      (subOne cardMatch cardTok false
        (subOne phoneMatch phoneTok false
          (subOne ssnMatch ssnTok false
            (subOne emailMatch emailTok false text)))) :=
  subOne_cleanAt cardMatch_laws cardMatch_laws cardTok "CREDIT_CARD_REDACTED".data
    (by decide) (by decide) (by decide) (by decide) _ false (Or.inl fun _ _ => rfl)

theorem mask_pii_on (cfg : GuardrailConfig) (hp : cfg.pii_detection = true)
    (text : List Char) :
    mask_pii cfg text =
      subOne cardMatch cardTok false
        (subOne phoneMatch phoneTok false
          (subOne ssnMatch ssnTok false
            (subOne emailMatch emailTok false text))) := by
  rw [mask_pii, if_neg (by rw [hp]; simp)]

theorem lookup_email_filtered (a b c d : Nat) :
    (([("email", a), ("ssn", b), ("phone", c), ("credit_card", d)] :
        List (String × Nat)).filter (fun kv => kv.2 ≠ 0)).lookup "email" =
      if a = 0 then none else some a := by
  have e1 : (("ssn" : String) == "email") = false := by decide
  have e2 : (("phone" : String) == "email") = false := by decide
  have e3 : (("credit_card" : String) == "email") = false := by decide
  by_cases ha : a = 0 <;> by_cases hb : b = 0 <;> by_cases hc : c = 0 <;> by_cases hd : d = 0 <;>
    simp [ha, hb, hc, hd, List.filter, List.lookup, e1, e2, e3]

/-- C5: the PII mask operation is idempotent — for every configuration and
every text, `mask(mask(text)) = mask(text)`: with detection off the mask is
the identity, and with it on each of the four patterns finds no match in
the pipeline's output (its own pass eliminated them and the inserted
redaction tokens, being bracket-delimited and free of `@` and digits,
neither match nor recreate a match). -/
theorem C5_mask_idempotent (cfg : GuardrailConfig) (text : List Char) :
    mask_pii cfg (mask_pii cfg text) = mask_pii cfg text := by
  by_cases hpii : cfg.pii_detection = false
  · rw [mask_pii, if_pos hpii, mask_pii, if_pos hpii]
  · have hp : cfg.pii_detection = true := by
      revert hpii
      cases cfg.pii_detection <;> simp
    rw [mask_pii_on cfg hp text, mask_pii_on cfg hp]
    rw [subOne_eq_of_cleanAt emailMatch emailTok _ false (mask_clean_email text)]
    rw [subOne_eq_of_cleanAt ssnMatch ssnTok _ false (mask_clean_ssn text)]
    rw [subOne_eq_of_cleanAt phoneMatch phoneTok _ false (mask_clean_phone text)]
    rw [subOne_eq_of_cleanAt cardMatch cardTok _ false (mask_clean_card text)]

/-- C4 (amended): with detection enabled and `N` the number of
non-overlapping email matches of the text, detect maps `email` to `N` when
`N > 0` and omits the kind when `N = 0`, every reported kind has a positive
count, the masked text contains no email match, and — provided the text
does not already contain the literal token `[EMAIL_REDACTED]` — the masked
text contains exactly `N` occurrences of `[EMAIL_REDACTED]`. -/
theorem C4_email_detect_mask (cfg : GuardrailConfig) (text : List Char) (N : Nat)
    (hpii : cfg.pii_detection = true)
    (hN : countMatch emailMatch false text = N) :
    ((0 < N → (detect_pii cfg text).lookup "email" = some N) ∧
     (N = 0 → (detect_pii cfg text).lookup "email" = none) ∧
     (∀ kv ∈ detect_pii cfg text, 0 < kv.2)) ∧
    countMatch emailMatch false (mask_pii cfg text) = 0 ∧
    (countOcc emailTok text = 0 → countOcc emailTok (mask_pii cfg text) = N) := by
  have hdet : detect_pii cfg text =
      ([("email", countMatch emailMatch false text),
        ("ssn", countMatch ssnMatch false text),
        ("phone", countMatch phoneMatch false text),
        ("credit_card", countMatch cardMatch false text)]).filter (fun kv => kv.2 ≠ 0) := by
    rw [detect_pii, if_neg (by rw [hpii]; simp)]
  refine ⟨⟨?_, ?_, ?_⟩, ?_, ?_⟩
  · intro hpos
    rw [hdet, lookup_email_filtered, hN, if_neg (by omega)]
  · intro hzero
    rw [hdet, lookup_email_filtered, hN, if_pos hzero]
  · intro kv hkv
    rw [hdet] at hkv
    have := List.of_mem_filter hkv
    simp at this
    omega
  · rw [mask_pii_on cfg hpii]
    exact countMatch_eq_zero_of_cleanAt emailMatch _ false (mask_clean_email text)
  · intro hz
    rw [mask_pii_on cfg hpii]
    rw [countOcc_subOne_other cardMatch_laws cardTok "CREDIT_CARD_REDACTED".data emailTok
      (by decide) (by decide) (by decide) emailTok_bracket_only_head emailTok_noStraddle_cardTok]
    rw [countOcc_subOne_other phoneMatch_laws phoneTok "PHONE_REDACTED".data emailTok
      (by decide) (by decide) (by decide) emailTok_bracket_only_head emailTok_noStraddle_phoneTok]
    rw [countOcc_subOne_other ssnMatch_laws ssnTok "SSN_REDACTED".data emailTok
      (by decide) (by decide) (by decide) emailTok_bracket_only_head emailTok_noStraddle_ssnTok]
    rw [countOcc_subOne_self emailMatch_laws emailTok "EMAIL_REDACTED".data
      (by decide) emailTok_bracket_only_head emailTok_noStraddlePos_self text false hz, hN]

theorem C4_email_detect_mask_witness :
    ((0 < 1 →
        (detect_pii ⟨true, [], true, true, true, []⟩ "x@y.io".data).lookup "email" = some 1) ∧
     (1 = 0 →
        (detect_pii ⟨true, [], true, true, true, []⟩ "x@y.io".data).lookup "email" = none) ∧
     (∀ kv ∈ detect_pii ⟨true, [], true, true, true, []⟩ "x@y.io".data, 0 < kv.2)) ∧
    countMatch emailMatch false (mask_pii ⟨true, [], true, true, true, []⟩ "x@y.io".data) = 0 ∧
    (countOcc emailTok "x@y.io".data = 0 →
      countOcc emailTok (mask_pii ⟨true, [], true, true, true, []⟩ "x@y.io".data) = 1) :=
  C4_email_detect_mask ⟨true, [], true, true, true, []⟩ "x@y.io".data 1 rfl (by decide)

end AwsOrch
